import Mathlib

/-!
Verification of the divvy shared-finance ledger.

The repository stores the ledger-and-settlement engine in `src/divvy`
(`logic.py`, `database.py`, `schema.sql`); that directory is not present in
this source tree — only its test suite (`src/tests/test_logic.py`,
`src/tests/test_database.py`) is.  The engine is therefore modelled from the
specification (`spec.md`), and every definition whose Python source is absent
carries a doc comment saying so.  The `app/` package (ledger repository,
user repository, dict-update utility) is present and is translated from its
Python source directly.

All monetary amounts are integers in minor currency units.
-/

namespace Divvy

/-- Sum of a list of integers (minor currency units). -/
def sumI : List Int → Int
  | [] => 0
  | x :: xs => x + sumI xs

/-- Read a balance list at a position, defaulting to 0 out of range. -/
def getI (bs : List Int) (i : Nat) : Int := bs.getD i 0

/-- Number of nonzero entries of a balance list. -/
def countNZ : List Int → Nat
  | [] => 0
  | b :: bs => (if b = 0 then 0 else 1) + countNZ bs

/-- Minimum entry of a balance list (0 for the empty list).  Used to locate
the largest-magnitude debtor: a negative minimum is a debtor balance. -/
def minL : List Int → Int
  | [] => 0
  | b :: bs => min b (minL bs)

/-- Maximum entry of a balance list (0 for the empty list).  Used to locate
the largest-magnitude creditor. -/
def maxL : List Int → Int
  | [] => 0
  | b :: bs => max b (maxL bs)

/-- Index of the first occurrence of a value in a balance list. -/
def firstIdxOf (v : Int) : List Int → Nat
  | [] => 0
  | b :: bs => if b = v then 0 else firstIdxOf v bs + 1

/-- Transaction type: the schema stores `deposit` and `expense` rows;
settlement-generated rows are `deposit` rows whose amount may be negative. -/
inductive TxType where
  | deposit
  | expense
deriving DecidableEq, Repr

/-- Modelled from the spec: the `members` table of the missing
`src/divvy/schema.sql` — `(id, name, is_active, paid_remainder_in_cycle)`. -/
structure Member where
  id : Nat
  name : String
  is_active : Bool
  paid_remainder_in_cycle : Bool
deriving DecidableEq, Repr

/-- Modelled from the spec: the `periods` table of the missing
`src/divvy/schema.sql` — `(id, name, start_date, end_date, is_settled)`.
The start date plays no role in any claim; the end date is tracked as a
Boolean `has_end_date` (set at settlement). -/
structure Period where
  id : Nat
  name : String
  is_settled : Bool
  has_end_date : Bool
deriving DecidableEq, Repr

/-- Modelled from the spec: a transaction row of the missing
`src/divvy/schema.sql`, in the balanced-batch form the spec prescribes
(section 6): besides the flat fields, each economic event carries its
per-participant share breakdown `member_deltas` (signed deltas applied to
member balances) and `fund_delta` (signed delta applied to the public fund),
so balance aggregation is a pure signed sum. -/
structure Tx where
  tx_type : TxType
  amount : Int
  description : Option String
  payer_id : Nat
  period_id : Nat
  member_deltas : List (Nat × Int)
  fund_delta : Int
deriving DecidableEq, Repr

/-- Modelled from the spec: the whole persistent store of the missing
`src/divvy/database.py` — members, periods and the immutable transaction
ledger, plus the id counters of the autoincrement primary keys. -/
structure DB where
  members : List Member
  periods : List Period
  txs : List Tx
  next_member_id : Nat
  next_period_id : Nat
deriving DecidableEq, Repr

/-- Modelled from the spec: the reserved internal name of the virtual
public-fund member (`database.VIRTUAL_MEMBER_INTERNAL_NAME` in the missing
`src/divvy/database.py`).  The virtual member is a pseudo-payer; it is
identified here by the reserved id 0 (real members get ids from 1). -/
def VIRTUAL_MEMBER_INTERNAL_NAME : String := "Public Fund"

/-- The reserved id of the virtual public-fund member. -/
def VIRTUAL_MEMBER_ID : Nat := 0

/-- Modelled from the spec: the initial store — one open period, no members,
no transactions (the schema seeds an initial period; the tests create the
virtual member row, represented implicitly here by the reserved id 0). -/
def initState : DB :=
  { members := []
  , periods := [{ id := 1, name := "Initial Period", is_settled := false, has_end_date := false }]
  , txs := []
  , next_member_id := 1
  , next_period_id := 2 }

/-- Modelled from the spec: `logic.add_new_member` of the missing
`src/divvy/logic.py` — inserts an active member with a fresh ascending id and
a cleared `paid_remainder_in_cycle` flag. -/
def add_new_member (s : DB) (name : String) : DB :=
  { s with
    members := s.members ++ [{ id := s.next_member_id, name := name, is_active := true, paid_remainder_in_cycle := false }]
  , next_member_id := s.next_member_id + 1 }

/-- Modelled from the spec: `database.get_current_period` of the missing
`src/divvy/database.py` — the (unique, per the spec invariant) period with
`is_settled = false`. -/
def get_current_period (s : DB) : Option Period :=
  s.periods.find? (fun p => !p.is_settled)

/-- Modelled from the spec: `database.create_new_period` of the missing
`src/divvy/database.py` — inserts a fresh open (unsettled) period, as
exercised by `test_create_new_period`; it does not touch existing periods. -/
def create_new_period (s : DB) (name : String) : DB :=
  { s with
    periods := s.periods ++ [{ id := s.next_period_id, name := name, is_settled := false, has_end_date := false }]
  , next_period_id := s.next_period_id + 1 }

/-- Modelled from the spec: `database.get_active_members` of the missing
`src/divvy/database.py` — active members in ascending-id order (members are
stored in insertion order with ascending ids). -/
def get_active_members (s : DB) : List Member :=
  s.members.filter (fun m => m.is_active)

/-- Modelled from the spec: member-name lookup of the missing
`src/divvy/database.py`; the virtual fund member answers to its reserved
internal name. -/
def findMemberId (s : DB) (name : String) : Option Nat :=
  if name = VIRTUAL_MEMBER_INTERNAL_NAME then some VIRTUAL_MEMBER_ID
  else (s.members.find? (fun m => m.name = name)).map (fun m => m.id)

/-- Signed delta that a stored per-participant breakdown applies to a given
member id. -/
def deltaSum (mid : Nat) : List (Nat × Int) → Int
  | [] => 0
  | d :: ds => (if d.1 = mid then d.2 else 0) + deltaSum mid ds

/-- Signed delta a transaction applies to a member balance. -/
def deltaFor (mid : Nat) (tx : Tx) : Int := deltaSum mid tx.member_deltas

/-- Transactions recorded against a given period. -/
def txsInPeriod (s : DB) (pid : Nat) : List Tx :=
  s.txs.filter (fun t => t.period_id = pid)

/-- Modelled from the spec: period-scoped balance aggregation of the missing
`src/divvy/logic.py` (spec section 4.3) — a pure signed sum of the stored
per-participant breakdowns over the transactions of the period. -/
def member_balance (s : DB) (pid : Nat) (mid : Nat) : Int :=
  sumI ((txsInPeriod s pid).map (deltaFor mid))

/-- Modelled from the spec: all-time balance aggregation (`periodScope =
"all"`, spec section 4.3). -/
def member_balance_all (s : DB) (mid : Nat) : Int :=
  sumI (s.txs.map (deltaFor mid))

/-- Modelled from the spec: the public-fund balance — a pure signed sum of
the fund deltas over the whole ledger (the fund carries across periods). -/
def fund_balance (s : DB) : Int := sumI (s.txs.map (fun t => t.fund_delta))

/-- Net public-fund movement inside one period. -/
def fund_delta_in_period (s : DB) (pid : Nat) : Int :=
  sumI ((txsInPeriod s pid).map (fun t => t.fund_delta))

/-- Modelled from the spec: `logic.get_active_member_balances` of the missing
`src/divvy/logic.py` — the period-scoped balances of the active members, in
ascending-id order. -/
def get_active_member_balances (s : DB) (pid : Nat) : List (Nat × Int) :=
  (get_active_members s).map (fun m => (m.id, member_balance s pid m.id))

/-- Modelled from the spec: `logic.record_deposit` of the missing
`src/divvy/logic.py` (spec section 4.1) — fails on a non-positive amount, an
unknown member, or a missing current period; a deposit to the virtual fund
member increases the public fund, a deposit to a normal member increases only
that member balance. -/
def record_deposit (s : DB) (description : Option String) (amount : Int) (memberName : String) : Option DB :=
  if amount ≤ 0 then none
  else
    match get_current_period s, findMemberId s memberName with
    | some p, some mid =>
        if mid = VIRTUAL_MEMBER_ID then
          some { s with txs := s.txs ++
            [{ tx_type := TxType.deposit, amount := amount, description := description
             , payer_id := mid, period_id := p.id, member_deltas := [], fund_delta := amount }] }
        else
          some { s with txs := s.txs ++
            [{ tx_type := TxType.deposit, amount := amount, description := description
             , payer_id := mid, period_id := p.id, member_deltas := [(mid, amount)], fund_delta := 0 }] }
    | _, _ => none

/-- Modelled from the spec: the remainder round-robin of the expense splitter
(spec section 4.2, step 2) of the missing `src/divvy/logic.py`, factored over
the `paid_remainder_in_cycle` flags of the active members in ascending-id
order: scan for the first flag that is `false`; if all are `true`, reset
every flag to `false` first and pick the first.  Returns the index of the
chosen member together with the updated flags (the chosen flag set). -/
def firstFalse : List Bool → Option Nat
  | [] => none
  | b :: bs => if b then (firstFalse bs).map (fun i => i + 1) else some 0

/-- The rotation step of the remainder round-robin (see `firstFalse`). -/
def assignRemainder (flags : List Bool) : Nat × List Bool :=
  match firstFalse flags with
  | some i => (i, flags.set i true)
  | none => (0, (flags.map (fun _ => false)).set 0 true)

/-- Write a flag list (one entry per active member, in order) back into the
full member list, leaving inactive members untouched. -/
def write_flags : List Member → List Bool → List Member
  | [], _ => []
  | m :: ms, flags =>
    if m.is_active then
      match flags with
      | [] => m :: ms
      | f :: fs => { m with paid_remainder_in_cycle := f } :: write_flags ms fs
    else
      m :: write_flags ms flags

/-- Modelled from the spec: the integer split of the expense splitter (spec
section 4.2, step 1) — `share = amount // activeCount` (floor division) and
`remainder = amount - share * activeCount`. -/
def split_shares (amount : Int) (activeCount : Nat) : Int × Int :=
  let share := amount / (activeCount : Int)
  (share, amount - share * (activeCount : Int))

/-- A fallback member value for out-of-range index accesses (never reached on
the executions the theorems describe). -/
def defaultMember : Member :=
  { id := 0, name := "", is_active := false, paid_remainder_in_cycle := false }

/-- Modelled from the spec: the shared-expense fund offset (spec section
4.2, step 3) of the missing `src/divvy/logic.py` — `min(amount,
currentFundBalance)` when the payer is the virtual fund member, 0 for an
individual payer. -/
def expense_offset (s : DB) (amount : Int) (payerId : Nat) : Int :=
  if payerId = VIRTUAL_MEMBER_ID then min amount (fund_balance s) else 0

/-- The `(share, remainder)` of the residual split of an expense (the full
amount for an individual payer). -/
def expense_split (s : DB) (amount : Int) (payerId : Nat) : Int × Int :=
  split_shares (amount - expense_offset s amount payerId) (get_active_members s).length

/-- The round-robin rotation over the active-member flags an expense
advances (chosen index, updated flags). -/
def expense_rotation (s : DB) : Nat × List Bool :=
  assignRemainder ((get_active_members s).map (fun m => m.paid_remainder_in_cycle))

/-- Modelled from the spec: the balanced transaction row an expense writes
(missing `src/divvy/logic.py`, spec sections 4.1-4.2 and 6): the payer
credit (individual expenses only), one debit of `share` per active member,
the extra remainder debit for the round-robin member, and the fund offset. -/
def expense_tx (s : DB) (description : Option String) (amount : Int) (payerId : Nat) (pid : Nat) : Tx :=
  let act := get_active_members s
  let share := (expense_split s amount payerId).1
  let rem := (expense_split s amount payerId).2
  let chosen := act.getD (expense_rotation s).1 defaultMember
  { tx_type := TxType.expense, amount := amount, description := description
  , payer_id := payerId, period_id := pid
  , member_deltas :=
      (if payerId = VIRTUAL_MEMBER_ID then [] else [(payerId, amount)])
      ++ act.map (fun m => (m.id, -share))
      ++ (if rem = 0 then [] else [(chosen.id, -rem)])
  , fund_delta := -(expense_offset s amount payerId) }

/-- Modelled from the spec: `logic.record_expense` of the missing
`src/divvy/logic.py` (spec sections 4.1 and 4.2).  Fails on a non-positive
amount, an unknown payer, a missing current period, or zero active members.
A shared expense (payer = virtual fund member) first draws
`min(amount, fundBalance)` from the public fund and splits only the residual;
an individual expense splits the full amount and credits the payer with it.
The remainder of the integer split, when nonzero, is borne entirely by the
round-robin member, whose flag is then set (category validation is omitted:
no claim mentions categories). -/
def record_expense (s : DB) (description : Option String) (amount : Int) (payerName : String) : Option DB :=
  if amount ≤ 0 then none
  else
    match get_current_period s, findMemberId s payerName with
    | some p, some payerId =>
      if (get_active_members s).length = 0 then none
      else
        some { s with
          txs := s.txs ++ [expense_tx s description amount payerId p.id]
        , members :=
            if (expense_split s amount payerId).2 = 0 then s.members
            else write_flags s.members (expense_rotation s).2 }
    | _, _ => none

/-- Modelled from the spec: one round of the greedy minimal-transfer netting
(spec section 4.4, step 3) of the missing `src/divvy/logic.py`: match the
largest-magnitude debtor (most negative balance) against the
largest-magnitude creditor (most positive balance), transfer
`min(|debtor|, creditor)`, reduce both; `none` when no debtor or no creditor
is left.  Balances are positional (one entry per active member, in
ascending-id order); a transfer is `(debtorIdx, creditorIdx, amount)`. -/
def settleStep (bs : List Int) : Option ((Nat × Nat × Int) × List Int) :=
  let dmin := minL bs
  let cmax := maxL bs
  if dmin < 0 ∧ 0 < cmax then
    let di := firstIdxOf dmin bs
    let ci := firstIdxOf cmax bs
    let t := min (-dmin) cmax
    some ((di, ci, t), (bs.set di (dmin + t)).set ci (cmax - t))
  else none

/-- The greedy netting loop, fuel-bounded for executability; `countNZ bs`
fuel is always enough (each round zeroes at least one balance). -/
def settleLoop : Nat → List Int → List (Nat × Nat × Int) × List Int
  | 0, bs => ([], bs)
  | fuel + 1, bs =>
    match settleStep bs with
    | none => ([], bs)
    | some (tr, bs') =>
      let rec_ := settleLoop fuel bs'
      (tr :: rec_.1, rec_.2)

/-- The balances of the active members for a period, in ascending-id order. -/
def period_balances (s : DB) (pid : Nat) : List Int :=
  (get_active_members s).map (fun m => member_balance s pid m.id)

/-- Modelled from the spec: `logic.get_settlement_plan` of the missing
`src/divvy/logic.py` — the list of greedy netting transfers for a period,
computed without persisting anything (spec section 6: settlement plan
preview). -/
def get_settlement_plan (s : DB) (pid : Nat) : List (Nat × Nat × Int) :=
  (settleLoop (countNZ (period_balances s pid)) (period_balances s pid)).1

/-- Modelled from the spec: the settlement transactions written by
`logic.settle_current_period` (spec section 4.4, step 4): per matched pair,
the debtor gets a deposit of `+t` described "Settlement payment to
creditor" and the creditor gets a deposit of `-t` described "Settlement
payment from debtor", both tagged to the closing period. -/
def settlement_txs (act : List Member) (pid : Nat) : List (Nat × Nat × Int) → List Tx
  | [] => []
  | (di, ci, t) :: trs =>
    let d := act.getD di defaultMember
    let c := act.getD ci defaultMember
    { tx_type := TxType.deposit, amount := t
    , description := some ("Settlement payment to " ++ c.name)
    , payer_id := d.id, period_id := pid
    , member_deltas := [(d.id, t)], fund_delta := 0 } ::
    { tx_type := TxType.deposit, amount := -t
    , description := some ("Settlement payment from " ++ d.name)
    , payer_id := c.id, period_id := pid
    , member_deltas := [(c.id, -t)], fund_delta := 0 } ::
    settlement_txs act pid trs

/-- The settlement transactions `settle_current_period` generates for the
current period (excluding the public-fund distribution entry). -/
def generated_settlement_txs (s : DB) : List Tx :=
  match get_current_period s with
  | none => []
  | some p => settlement_txs (get_active_members s) p.id (get_settlement_plan s p.id)

/-- Modelled from the spec: the at-most-one "Public fund distribution" entry
written at settlement when the fund was drawn down during the period (spec
section 4.4, step 5); a summarizing record that moves no member balance and
no fund balance. -/
def fund_distribution_txs (s : DB) (pid : Nat) : List Tx :=
  if fund_delta_in_period s pid < 0 then
    [{ tx_type := TxType.deposit, amount := fund_delta_in_period s pid
     , description := some "Public fund distribution"
     , payer_id := VIRTUAL_MEMBER_ID, period_id := pid
     , member_deltas := [], fund_delta := 0 }]
  else []

/-- Modelled from the spec: `logic.settle_current_period` of the missing
`src/divvy/logic.py` (spec section 4.4) — fails when no current period
exists; otherwise writes the greedy settlement transactions and the optional
fund-distribution entry against the closing period, marks that period
settled (with its end date set), and opens exactly one new current period. -/
def settle_current_period (s : DB) (newName : String) : Option DB :=
  match get_current_period s with
  | none => none
  | some p =>
    some { s with
      txs := s.txs ++ generated_settlement_txs s ++ fund_distribution_txs s p.id
    , periods :=
        (s.periods.map (fun q =>
          if q.id = p.id then { q with is_settled := true, has_end_date := true } else q))
        ++ [{ id := s.next_period_id, name := newName, is_settled := false, has_end_date := false }]
    , next_period_id := s.next_period_id + 1 }

/-- Number of unsettled (open) periods — the spec invariant says this is
always exactly 1. -/
def openCount (s : DB) : Nat :=
  (s.periods.filter (fun p => !p.is_settled)).length

/-- The total money in the system: the sum of the active-member all-time
balances plus the public-fund balance (spec section 8, conservation). -/
def total_money (s : DB) : Int :=
  sumI ((get_active_members s).map (fun m => member_balance_all s m.id)) + fund_balance s

/-- Net signed amount a list of transfers moves to a positional index
(received as debtor minus paid out as creditor). -/
def netDelta : List (Nat × Nat × Int) → Nat → Int
  | [], _ => 0
  | (di, ci, t) :: trs, j =>
    ((if di = j then t else 0) - (if ci = j then t else 0)) + netDelta trs j

/-- The rotation-flag state of `N` active members after `k` remainder
assignments, starting from all-false flags. -/
def flagsAfter (N k : Nat) : List Bool :=
  Nat.iterate (fun fl => (assignRemainder fl).2) k (List.replicate N false)

/-- The (0-based) index chosen by the `k`-th (1-based) remainder
assignment. -/
def choiceAt (N k : Nat) : Nat :=
  (assignRemainder (flagsAfter N (k - 1))).1

/-- A flag list whose first `j` entries (of `N`) are `true`. -/
def prefixFlags (N j : Nat) : List Bool :=
  List.replicate j true ++ List.replicate (N - j) false

/-- The number of set flags after `k` assignments among `N` members. -/
def jval (N k : Nat) : Nat := if k = 0 then 0 else (k - 1) % N + 1

/-- Whether every rotation flag is set. -/
def allTrue (fl : List Bool) : Bool := fl.all (fun b => b)

/-- The states reachable through the public operations of the engine from
the seeded initial store. -/
inductive Reachable : DB → Prop where
  | init : Reachable initState
  | add (s : DB) (name : String) : Reachable s → Reachable (add_new_member s name)
  | newPeriod (s : DB) (name : String) : Reachable s → Reachable (create_new_period s name)
  | deposit (s : DB) (d : Option String) (a : Int) (n : String) (s' : DB) :
      Reachable s → record_deposit s d a n = some s' → Reachable s'
  | expense (s : DB) (d : Option String) (a : Int) (n : String) (s' : DB) :
      Reachable s → record_expense s d a n = some s' → Reachable s'
  | settle (s : DB) (n : String) (s' : DB) :
      Reachable s → settle_current_period s n = some s' → Reachable s'

/-- From `src/app/models/ledger.py`, class `TransactionLog`: the immutable
ledger row (only the fields the claims mention are modelled; `id` and the
audit columns play no role). -/
structure TransactionLog where
  transaction_batch_id : Int
  debit_account_entity_id : Nat
  credit_account_entity_id : Nat
  amount : Int
deriving DecidableEq, Repr

/-- `select max(transaction_batch_id)` over the ledger table: `none` on an
empty table, as the SQL aggregate returns NULL there. -/
def maxBatchId : List TransactionLog → Option Int
  | [] => none
  | l :: ls =>
    match maxBatchId ls with
    | none => some l.transaction_batch_id
    | some m => some (max l.transaction_batch_id m)

/-- From `src/app/repositories/ledger.py`, `LedgerRepository.get_next_batch_id`:
`(max_id or 0) + 1` — Python `or` maps both `None` and `0` to `0`, which
coincides with `Option.getD 0`. -/
def get_next_batch_id (ledger : List TransactionLog) : Int :=
  (maxBatchId ledger).getD 0 + 1

/-- From `src/app/repositories/ledger.py`, `LedgerRepository.record_batch`:
stamps every log of the list with the fresh batch id, appends them to the
ledger, and returns the id. -/
def record_batch (ledger : List TransactionLog) (logs : List TransactionLog) :
    List TransactionLog × Int :=
  let batch_id := get_next_batch_id ledger
  (ledger ++ logs.map (fun l => { l with transaction_batch_id := batch_id }), batch_id)

/-- From `src/app/repositories/ledger.py`, `LedgerRepository.get_logs_by_batch_id`. -/
def get_logs_by_batch_id (ledger : List TransactionLog) (batch_id : Int) :
    List TransactionLog :=
  ledger.filter (fun l => l.transaction_batch_id = batch_id)

/-- A Python attribute value (for the dynamic attribute-patching model). -/
inductive PyVal where
  | str (s : String)
  | int (n : Int)
  | bool (b : Bool)
  | pynone
deriving DecidableEq, Repr

/-- A Python object as its attribute map: `some v` exactly on the attribute
names the object has (`hasattr`). -/
def Obj : Type := String → Option PyVal

/-- Python `hasattr`. -/
def hasattr (o : Obj) (k : String) : Bool := (o k).isSome

/-- Python `setattr`. -/
def setattr (o : Obj) (k : String) (v : PyVal) : Obj :=
  fun k' => if k' = k then some v else o k'

/-- From `src/app/db/utils.py`, `apply_dict_updates`: iterates the update
dictionary in order; skips keys in the exclusion set (`None` behaves as the
empty set, as does Python falsiness of an empty set); skips keys the entity
does not have; sets the rest. -/
def apply_dict_updates (entity : Obj) (update_data : List (String × PyVal))
    (excluded_attrs : Option (List String)) : Obj :=
  let excluded := match excluded_attrs with | none => [] | some e => e
  update_data.foldl
    (fun e kv =>
      if kv.1 ∈ excluded then e
      else if hasattr e kv.1 then setattr e kv.1 kv.2 else e)
    entity

/-- From `src/app/repositories/user.py`, `UserRepository.update`: the
blocklisted sensitive fields. -/
def USER_UPDATE_SENSITIVE : List String := ["id", "password_hash", "created_at", "created_by"]

/-- The user store, keyed by id (stands for the session plus `get_by_id`). -/
def user_get_by_id (users : List (Nat × Obj)) (user_id : Nat) : Option Obj :=
  (users.find? (fun p => p.1 = user_id)).map (fun p => p.2)

/-- From `src/app/repositories/user.py`, `UserRepository.update`: fetch the
user by id (`None` when absent) and apply the dictionary through
`apply_dict_updates` with the sensitive-field blocklist; returns the updated
user. -/
def user_update (users : List (Nat × Obj)) (user_id : Nat)
    (update_data : List (String × PyVal)) : Option Obj :=
  match user_get_by_id users user_id with
  | none => none
  | some u => some (apply_dict_updates u update_data (some USER_UPDATE_SENSITIVE))

/-- One active member named Alice (id 1). -/
def sAlice : DB := add_new_member initState "Alice"

/-- Active members Alice (id 1) and Bob (id 2). -/
def sAliceBob : DB := add_new_member sAlice "Bob"

/-- Active members Alice (1), Bob (2), Charlie (3). -/
def sABC : DB := add_new_member sAliceBob "Charlie"

/-- A period holding a lone deposit: Alice deposited 100.00. -/
def depositState : DB :=
  (record_deposit sAlice (some "Alice deposit") 10000 "Alice").getD initState

/-- `depositState` after settling the period. -/
def depositSettled : DB :=
  (settle_current_period depositState "Next").getD initState

/-- Alice paid a 10.00 dinner split with Bob: balances +500 / -500. -/
def dinnerState : DB :=
  (record_expense sAliceBob (some "Dinner") 1000 "Alice").getD initState

/-- `dinnerState` after settling the period. -/
def dinnerSettled : DB :=
  (settle_current_period dinnerState "Next").getD initState

/-- A shared 3000.00 expense between Alice and Bob with an empty fund. -/
def sharedRentState : DB :=
  (record_expense sAliceBob (some "Rent") 300000 VIRTUAL_MEMBER_INTERNAL_NAME).getD initState

/-- A 30.00 deposit into the public fund (members Alice and Bob). -/
def fundSeededState : DB :=
  (record_deposit sAliceBob (some "pf") 3000 VIRTUAL_MEMBER_INTERNAL_NAME).getD initState

/-- `fundSeededState` after a shared 100.00 expense (fund covers 30.00). -/
def sharedAfterFund : DB :=
  (record_expense fundSeededState (some "Rent") 10000 VIRTUAL_MEMBER_INTERNAL_NAME).getD initState

/-- A 5.00 expense among Alice, Bob and Charlie: 500 = 166 * 3 + 2, so the
integer split leaves a remainder of 2 minor units. -/
def oddSplitState : DB :=
  (record_expense sABC (some "Odd") 500 "Alice").getD initState

/-- A sample immutable ledger row (batch id parameterized). -/
def sampleLog (b : Int) : TransactionLog :=
  { transaction_batch_id := b, debit_account_entity_id := 1
  , credit_account_entity_id := 2, amount := 100 }

/-- A sample user object with the attributes of the `User` model. -/
def sampleUser : Obj := fun k =>
  if k = "id" then some (PyVal.int 7)
  else if k = "email" then some (PyVal.str "a@b.c")
  else if k = "username" then some (PyVal.str "al")
  else if k = "password_hash" then some (PyVal.str "h")
  else if k = "is_active" then some (PyVal.bool true)
  else none

theorem sumI_append (l r : List Int) : sumI (l ++ r) = sumI l + sumI r := by
  induction l with
  | nil => simp [sumI]
  | cons x xs ih => simp [sumI, ih]; omega

theorem sumI_map_add {α : Type} (l : List α) (f g : α → Int) :
    sumI (l.map (fun a => f a + g a)) = sumI (l.map f) + sumI (l.map g) := by
  induction l with
  | nil => simp [sumI]
  | cons x xs ih => simp [sumI, ih]; omega

theorem sumI_map_zero {α : Type} (l : List α) (f : α → Int) (h : ∀ a ∈ l, f a = 0) :
    sumI (l.map f) = 0 := by
  induction l with
  | nil => simp [sumI]
  | cons x xs ih =>
    simp [sumI, h x (by simp)]
    exact ih (fun a ha => h a (by simp [ha]))

theorem sumI_nonneg (l : List Int) (h : ∀ x ∈ l, 0 ≤ x) : 0 ≤ sumI l := by
  induction l with
  | nil => simp [sumI]
  | cons x xs ih =>
    have hx := h x (by simp)
    have := ih (fun a ha => h a (by simp [ha]))
    simp [sumI]; omega

theorem sumI_nonpos (l : List Int) (h : ∀ x ∈ l, x ≤ 0) : sumI l ≤ 0 := by
  induction l with
  | nil => simp [sumI]
  | cons x xs ih =>
    have hx := h x (by simp)
    have := ih (fun a ha => h a (by simp [ha]))
    simp [sumI]; omega

theorem sumI_eq_zero_of_nonneg (l : List Int) (h : ∀ x ∈ l, 0 ≤ x) (hz : sumI l = 0) :
    ∀ x ∈ l, x = 0 := by
  induction l with
  | nil => simp
  | cons x xs ih =>
    have hx := h x (by simp)
    have hxs : 0 ≤ sumI xs := sumI_nonneg xs (fun a ha => h a (by simp [ha]))
    have hsum : x + sumI xs = 0 := hz
    intro y hy
    rcases List.mem_cons.mp hy with rfl | hy'
    · omega
    · exact ih (fun a ha => h a (by simp [ha])) (by omega) y hy'

theorem sumI_eq_zero_of_nonpos (l : List Int) (h : ∀ x ∈ l, x ≤ 0) (hz : sumI l = 0) :
    ∀ x ∈ l, x = 0 := by
  induction l with
  | nil => simp
  | cons x xs ih =>
    have hx := h x (by simp)
    have hxs : sumI xs ≤ 0 := sumI_nonpos xs (fun a ha => h a (by simp [ha]))
    have hsum : x + sumI xs = 0 := hz
    intro y hy
    rcases List.mem_cons.mp hy with rfl | hy'
    · omega
    · exact ih (fun a ha => h a (by simp [ha])) (by omega) y hy'

theorem getI_cons_zero (b : Int) (bs : List Int) : getI (b :: bs) 0 = b := rfl

theorem getI_cons_succ (b : Int) (bs : List Int) (i : Nat) :
    getI (b :: bs) (i + 1) = getI bs i := rfl

theorem getI_set_self (bs : List Int) (i : Nat) (v : Int) (h : i < bs.length) :
    getI (bs.set i v) i = v := by
  induction bs generalizing i with
  | nil => simp at h
  | cons b bs ih =>
    cases i with
    | zero => simp [getI]
    | succ i =>
      simp only [List.set]
      simp only [getI, List.getD] at ih ⊢
      exact ih i (by simpa using h)

theorem getI_set_ne (bs : List Int) (i j : Nat) (v : Int) (h : i ≠ j) :
    getI (bs.set i v) j = getI bs j := by
  induction bs generalizing i j with
  | nil => simp [getI]
  | cons b bs ih =>
    cases i with
    | zero =>
      cases j with
      | zero => exact absurd rfl h
      | succ j => simp [getI]
    | succ i =>
      cases j with
      | zero => simp [getI]
      | succ j =>
        simp only [List.set]
        simp only [getI, List.getD] at ih ⊢
        exact ih i j (fun hc => h (by omega))

theorem sumI_set (bs : List Int) (i : Nat) (v : Int) (h : i < bs.length) :
    sumI (bs.set i v) + getI bs i = sumI bs + v := by
  induction bs generalizing i with
  | nil => simp at h
  | cons b bs ih =>
    cases i with
    | zero => simp [sumI, getI]; omega
    | succ i =>
      have := ih i (by simpa using h)
      simp only [List.set, sumI, getI_cons_succ]
      omega

theorem countNZ_set (bs : List Int) (i : Nat) (v : Int) (h : i < bs.length) :
    countNZ (bs.set i v) + (if getI bs i = 0 then 0 else 1) =
      countNZ bs + (if v = 0 then 0 else 1) := by
  induction bs generalizing i with
  | nil => simp at h
  | cons b bs ih =>
    cases i with
    | zero => simp [countNZ, getI]; omega
    | succ i =>
      have := ih i (by simpa using h)
      simp only [List.set, countNZ, getI_cons_succ]
      omega

theorem countNZ_pos (bs : List Int) (i : Nat) (h : i < bs.length) (hnz : getI bs i ≠ 0) :
    1 ≤ countNZ bs := by
  induction bs generalizing i with
  | nil => simp at h
  | cons b bs ih =>
    cases i with
    | zero =>
      simp only [getI, List.getD] at hnz
      simp only [countNZ]
      simp at hnz
      simp [hnz]
    | succ i =>
      have := ih i (by simpa using h) (by simpa [getI, List.getD] using hnz)
      simp only [countNZ]
      omega

theorem countNZ_two (bs : List Int) (i j : Nat) (hi : i < bs.length) (hj : j < bs.length)
    (hne : i ≠ j) (hiz : getI bs i ≠ 0) (hjz : getI bs j ≠ 0) : 2 ≤ countNZ bs := by
  have h1 : countNZ (bs.set i 0) + (if getI bs i = 0 then 0 else 1) =
      countNZ bs + (if (0 : Int) = 0 then 0 else 1) := countNZ_set bs i 0 hi
  have h2 : getI (bs.set i 0) j ≠ 0 := by rw [getI_set_ne bs i j 0 hne]; exact hjz
  have h3 : 1 ≤ countNZ (bs.set i 0) :=
    countNZ_pos (bs.set i 0) j (by simpa using hj) h2
  simp [hiz] at h1
  omega

theorem countNZ_le_length (bs : List Int) : countNZ bs ≤ bs.length := by
  induction bs with
  | nil => simp [countNZ]
  | cons b bs ih => simp only [countNZ, List.length_cons]; split <;> omega

theorem countNZ_eq_zero (bs : List Int) (h : countNZ bs = 0) : ∀ x ∈ bs, x = 0 := by
  induction bs with
  | nil => simp
  | cons b bs ih =>
    simp only [countNZ] at h
    intro x hx
    rcases List.mem_cons.mp hx with rfl | hx'
    · by_contra hb; simp [hb] at h
    · exact ih (by omega) x hx'

theorem minL_le (bs : List Int) (x : Int) (hx : x ∈ bs) : minL bs ≤ x := by
  induction bs with
  | nil => simp at hx
  | cons b bs ih =>
    rcases List.mem_cons.mp hx with rfl | hx'
    · simp [minL, min_le_left]
    · exact le_trans (by simp [minL, min_le_right]) (ih hx')

theorem maxL_ge (bs : List Int) (x : Int) (hx : x ∈ bs) : x ≤ maxL bs := by
  induction bs with
  | nil => simp at hx
  | cons b bs ih =>
    rcases List.mem_cons.mp hx with rfl | hx'
    · simp [maxL, le_max_left]
    · exact le_trans (ih hx') (by simp [maxL, le_max_right])

theorem minL_mem (bs : List Int) (h : minL bs < 0) : minL bs ∈ bs := by
  induction bs with
  | nil => simp [minL] at h
  | cons b bs ih =>
    simp only [minL] at h ⊢
    rcases le_total b (minL bs) with hb | hb
    · simp [min_eq_left hb]
    · rw [min_eq_right hb] at h ⊢
      exact List.mem_cons_of_mem b (ih h)

theorem maxL_mem (bs : List Int) (h : 0 < maxL bs) : maxL bs ∈ bs := by
  induction bs with
  | nil => simp [maxL] at h
  | cons b bs ih =>
    simp only [maxL] at h ⊢
    rcases le_total b (maxL bs) with hb | hb
    · rw [max_eq_right hb] at h ⊢
      exact List.mem_cons_of_mem b (ih h)
    · simp [max_eq_left hb]

theorem firstIdxOf_lt_length (v : Int) (bs : List Int) (h : v ∈ bs) :
    firstIdxOf v bs < bs.length := by
  induction bs with
  | nil => simp at h
  | cons b bs ih =>
    simp only [firstIdxOf]
    by_cases hb : b = v
    · simp [hb]
    · have : v ∈ bs := by rcases List.mem_cons.mp h with rfl | h' <;> simp_all
      simp only [if_neg hb, List.length_cons]
      exact Nat.succ_lt_succ (ih this)

theorem getI_firstIdxOf (v : Int) (bs : List Int) (h : v ∈ bs) :
    getI bs (firstIdxOf v bs) = v := by
  induction bs with
  | nil => simp at h
  | cons b bs ih =>
    simp only [firstIdxOf]
    by_cases hb : b = v
    · simp [hb, getI]
    · have : v ∈ bs := by rcases List.mem_cons.mp h with rfl | h' <;> simp_all
      simp only [if_neg hb]
      simpa [getI, List.getD] using ih this

theorem settleStep_spec (bs : List Int) (di ci : Nat) (t : Int) (bs' : List Int)
    (h : settleStep bs = some ((di, ci, t), bs')) :
    minL bs < 0 ∧ 0 < maxL bs ∧
    di = firstIdxOf (minL bs) bs ∧ ci = firstIdxOf (maxL bs) bs ∧
    t = min (-(minL bs)) (maxL bs) ∧
    bs' = (bs.set di (minL bs + t)).set ci (maxL bs - t) := by
  simp only [settleStep] at h
  split at h
  · rename_i hc
    simp only [Option.some.injEq, Prod.mk.injEq] at h
    obtain ⟨⟨hdi, hci, ht⟩, hbs⟩ := h
    subst hdi; subst hci; subst ht
    exact ⟨hc.1, hc.2, rfl, rfl, rfl, hbs.symm⟩
  · exact absurd h (by simp)

theorem settleStep_facts (bs : List Int) (di ci : Nat) (t : Int) (bs' : List Int)
    (h : settleStep bs = some ((di, ci, t), bs')) :
    di < bs.length ∧ ci < bs.length ∧ di ≠ ci ∧
    getI bs di < 0 ∧ 0 < getI bs ci ∧ 1 ≤ t ∧
    bs'.length = bs.length ∧
    sumI bs' = sumI bs ∧
    countNZ bs' + 1 ≤ countNZ bs ∧ 2 ≤ countNZ bs ∧
    (∀ j, j ≠ di → j ≠ ci → getI bs' j = getI bs j) ∧
    getI bs' di = getI bs di + t ∧ getI bs' ci = getI bs ci - t := by
  obtain ⟨hmin, hmax, hdi, hci, ht, hbs⟩ := settleStep_spec bs di ci t bs' h
  have hminMem : minL bs ∈ bs := minL_mem bs hmin
  have hmaxMem : maxL bs ∈ bs := maxL_mem bs hmax
  have hdiLt : di < bs.length := hdi ▸ firstIdxOf_lt_length _ bs hminMem
  have hciLt : ci < bs.length := hci ▸ firstIdxOf_lt_length _ bs hmaxMem
  have hgdi : getI bs di = minL bs := hdi ▸ getI_firstIdxOf _ bs hminMem
  have hgci : getI bs ci = maxL bs := hci ▸ getI_firstIdxOf _ bs hmaxMem
  have hne : di ≠ ci := fun hc => by rw [hc, hgci] at hgdi; omega
  have ht1 : 1 ≤ t := by rw [ht]; omega
  have htmin : minL bs + t = 0 ∨ maxL bs - t = 0 := by rw [ht]; omega
  have hlen1 : (bs.set di (minL bs + t)).length = bs.length := by simp
  have hlen : bs'.length = bs.length := by rw [hbs]; simp
  have hgci' : getI (bs.set di (minL bs + t)) ci = maxL bs := by
    rw [getI_set_ne bs di ci _ hne, hgci]
  -- sum preservation
  have hs1 : sumI (bs.set di (minL bs + t)) + getI bs di = sumI bs + (minL bs + t) :=
    sumI_set bs di _ hdiLt
  have hs2 : sumI bs' + getI (bs.set di (minL bs + t)) ci =
      sumI (bs.set di (minL bs + t)) + (maxL bs - t) := by
    rw [hbs]; exact sumI_set _ ci _ (by rwa [hlen1])
  have hsum : sumI bs' = sumI bs := by rw [hgci'] at hs2; rw [hgdi] at hs1; omega
  -- nonzero count
  have hc1 : countNZ (bs.set di (minL bs + t)) + (if getI bs di = 0 then 0 else 1) =
      countNZ bs + (if minL bs + t = 0 then 0 else 1) := countNZ_set bs di _ hdiLt
  have hc2 : countNZ bs' + (if getI (bs.set di (minL bs + t)) ci = 0 then 0 else 1) =
      countNZ (bs.set di (minL bs + t)) + (if maxL bs - t = 0 then 0 else 1) := by
    rw [hbs]; exact countNZ_set _ ci _ (by rwa [hlen1])
  rw [hgdi] at hc1
  rw [hgci'] at hc2
  have hminNZ : ¬ (minL bs = 0) := by omega
  have hmaxNZ : ¬ (maxL bs = 0) := by omega
  rw [if_neg hminNZ] at hc1
  rw [if_neg hmaxNZ] at hc2
  have hcount : countNZ bs' + 1 ≤ countNZ bs := by
    rcases htmin with h0 | h0
    · rw [if_pos h0] at hc1
      split at hc2 <;> omega
    · rw [if_pos h0] at hc2
      split at hc1 <;> omega
  have htwo : 2 ≤ countNZ bs :=
    countNZ_two bs di ci hdiLt hciLt hne (by omega) (by omega)
  refine ⟨hdiLt, hciLt, hne, by omega, by omega, ht1, hlen, hsum, hcount, htwo, ?_, ?_, ?_⟩
  · intro j hjd hjc
    rw [hbs, getI_set_ne _ ci j _ (fun hc => hjc hc.symm),
        getI_set_ne _ di j _ (fun hc => hjd hc.symm)]
  · rw [hbs, getI_set_ne _ ci di _ (fun hc => hne hc.symm),
        getI_set_self bs di _ hdiLt, hgdi]
  · rw [hbs, getI_set_self _ ci _ (by rwa [hlen1]), hgci]

theorem settleStep_none_zero (bs : List Int) (h : settleStep bs = none)
    (hsum : sumI bs = 0) : ∀ x ∈ bs, x = 0 := by
  simp only [settleStep] at h
  split at h
  · exact absurd h (by simp)
  · rename_i hc
    rw [Decidable.not_and_iff_or_not] at hc
    rcases hc with hc | hc
    · have hmin : 0 ≤ minL bs := by omega
      exact sumI_eq_zero_of_nonneg bs
        (fun x hx => le_trans hmin (minL_le bs x hx)) hsum
    · have hmax : maxL bs ≤ 0 := by omega
      exact sumI_eq_zero_of_nonpos bs
        (fun x hx => le_trans (maxL_ge bs x hx) hmax) hsum

theorem settleStep_none_of_countNZ_zero (bs : List Int) (h : countNZ bs = 0) :
    settleStep bs = none := by
  have hz : ∀ x ∈ bs, x = 0 := countNZ_eq_zero bs h
  simp only [settleStep]
  rw [if_neg]
  intro ⟨hmin, _⟩
  have := hz (minL bs) (minL_mem bs hmin)
  omega

theorem getI_eq_zero_of_all (l : List Int) (j : Nat) (h : ∀ x ∈ l, x = 0) :
    getI l j = 0 := by
  induction l generalizing j with
  | nil => simp [getI]
  | cons b bs ih =>
    cases j with
    | zero => exact h b (by simp)
    | succ j =>
      rw [getI_cons_succ]
      exact ih j (fun x hx => h x (by simp [hx]))

theorem settleLoop_length_le (fuel : Nat) (bs : List Int) :
    (settleLoop fuel bs).1.length ≤ countNZ bs - 1 := by
  induction fuel generalizing bs with
  | zero => simp [settleLoop]
  | succ fuel ih =>
    simp only [settleLoop]
    cases hstep : settleStep bs with
    | none => simp
    | some pr =>
      obtain ⟨⟨di, ci, t⟩, bs'⟩ := pr
      obtain ⟨-, -, -, -, -, -, -, -, hcount, htwo, -, -, -⟩ :=
        settleStep_facts bs di ci t bs' hstep
      have := ih bs'
      simp only [List.length_cons]
      omega

theorem settleLoop_sum (fuel : Nat) (bs : List Int) :
    sumI (settleLoop fuel bs).2 = sumI bs := by
  induction fuel generalizing bs with
  | zero => simp [settleLoop]
  | succ fuel ih =>
    simp only [settleLoop]
    cases hstep : settleStep bs with
    | none => simp
    | some pr =>
      obtain ⟨⟨di, ci, t⟩, bs'⟩ := pr
      obtain ⟨-, -, -, -, -, -, -, hsum, -, -, -, -, -⟩ :=
        settleStep_facts bs di ci t bs' hstep
      simpa [ih bs'] using hsum

theorem settleLoop_len (fuel : Nat) (bs : List Int) :
    (settleLoop fuel bs).2.length = bs.length := by
  induction fuel generalizing bs with
  | zero => simp [settleLoop]
  | succ fuel ih =>
    simp only [settleLoop]
    cases hstep : settleStep bs with
    | none => simp
    | some pr =>
      obtain ⟨⟨di, ci, t⟩, bs'⟩ := pr
      obtain ⟨-, -, -, -, -, -, hlen, -, -, -, -, -, -⟩ :=
        settleStep_facts bs di ci t bs' hstep
      simpa [ih bs'] using hlen

theorem settleLoop_none (fuel : Nat) (bs : List Int) (h : countNZ bs ≤ fuel) :
    settleStep (settleLoop fuel bs).2 = none := by
  induction fuel generalizing bs with
  | zero =>
    simp only [settleLoop]
    exact settleStep_none_of_countNZ_zero bs (by omega)
  | succ fuel ih =>
    simp only [settleLoop]
    cases hstep : settleStep bs with
    | none => simpa using hstep
    | some pr =>
      obtain ⟨⟨di, ci, t⟩, bs'⟩ := pr
      obtain ⟨-, -, -, -, -, -, -, -, hcount, -, -, -, -⟩ :=
        settleStep_facts bs di ci t bs' hstep
      exact ih bs' (by omega)

theorem settleLoop_getI (fuel : Nat) (bs : List Int) (j : Nat) :
    getI (settleLoop fuel bs).2 j = getI bs j + netDelta (settleLoop fuel bs).1 j := by
  induction fuel generalizing bs with
  | zero => simp [settleLoop, netDelta]
  | succ fuel ih =>
    simp only [settleLoop]
    cases hstep : settleStep bs with
    | none => simp [netDelta]
    | some pr =>
      obtain ⟨⟨di, ci, t⟩, bs'⟩ := pr
      obtain ⟨-, -, hne, -, -, -, -, -, -, -, hother, hdi, hci⟩ :=
        settleStep_facts bs di ci t bs' hstep
      have hstepg : getI bs' j =
          getI bs j + ((if di = j then t else 0) - (if ci = j then t else 0)) := by
        by_cases hdj : di = j
        · subst hdj
          rw [if_pos rfl, if_neg (fun hc => hne hc.symm)] at *
          omega
        · by_cases hcj : ci = j
          · subst hcj
            rw [if_neg hdj, if_pos rfl]
            omega
          · rw [if_neg hdj, if_neg hcj,
              hother j (fun hc => hdj hc.symm) (fun hc => hcj hc.symm)]
            omega
      simp only [netDelta]
      rw [ih bs', hstepg]
      omega

theorem settleLoop_transfers (fuel : Nat) (bs : List Int) :
    ∀ tr ∈ (settleLoop fuel bs).1,
      1 ≤ tr.2.2 ∧ tr.1 < bs.length ∧ tr.2.1 < bs.length := by
  induction fuel generalizing bs with
  | zero => simp [settleLoop]
  | succ fuel ih =>
    simp only [settleLoop]
    cases hstep : settleStep bs with
    | none => simp
    | some pr =>
      obtain ⟨⟨di, ci, t⟩, bs'⟩ := pr
      obtain ⟨hdiLt, hciLt, -, -, -, ht1, hlen, -, -, -, -, -, -⟩ :=
        settleStep_facts bs di ci t bs' hstep
      intro tr htr
      rcases List.mem_cons.mp htr with rfl | htr'
      · exact ⟨ht1, hdiLt, hciLt⟩
      · have := ih bs' tr htr'
        rw [hlen] at this
        exact this

theorem settleLoop_final_zero (bs : List Int) (hsum : sumI bs = 0) :
    ∀ j, getI (settleLoop (countNZ bs) bs).2 j = 0 := by
  intro j
  have hnone := settleLoop_none (countNZ bs) bs (le_refl _)
  have hs := settleLoop_sum (countNZ bs) bs
  have hz := settleStep_none_zero _ hnone (by rw [hs, hsum])
  exact getI_eq_zero_of_all _ j hz

theorem settlement_txs_length (act : List Member) (pid : Nat) (trs : List (Nat × Nat × Int)) :
    (settlement_txs act pid trs).length = 2 * trs.length := by
  induction trs with
  | nil => simp [settlement_txs]
  | cons tr trs ih =>
    obtain ⟨di, ci, t⟩ := tr
    simp only [settlement_txs, List.length_cons, ih]
    omega

theorem settlement_txs_mem (act : List Member) (pid : Nat) (trs : List (Nat × Nat × Int)) :
    ∀ tx ∈ settlement_txs act pid trs,
      tx.period_id = pid ∧ tx.tx_type = TxType.deposit ∧ tx.fund_delta = 0 := by
  induction trs with
  | nil => simp [settlement_txs]
  | cons tr trs ih =>
    obtain ⟨di, ci, t⟩ := tr
    intro tx htx
    simp only [settlement_txs] at htx
    rcases List.mem_cons.mp htx with rfl | htx'
    · exact ⟨rfl, rfl, rfl⟩
    rcases List.mem_cons.mp htx' with rfl | htx''
    · exact ⟨rfl, rfl, rfl⟩
    · exact ih tx htx''

theorem settlement_txs_shape (act : List Member) (pid : Nat) (trs : List (Nat × Nat × Int))
    (htr : ∀ tr ∈ trs, 1 ≤ tr.2.2 ∧ tr.1 < act.length ∧ tr.2.1 < act.length) :
    ∀ tx ∈ settlement_txs act pid trs,
      tx.tx_type = TxType.deposit ∧ tx.period_id = pid ∧
      ((0 < tx.amount ∧ ∃ d ∈ act, ∃ c ∈ act, tx.payer_id = d.id ∧
          tx.description = some ("Settlement payment to " ++ c.name)) ∨
       (tx.amount < 0 ∧ ∃ d ∈ act, ∃ c ∈ act, tx.payer_id = c.id ∧
          tx.description = some ("Settlement payment from " ++ d.name))) := by
  induction trs with
  | nil => simp [settlement_txs]
  | cons tr trs ih =>
    obtain ⟨di, ci, t⟩ := tr
    obtain ⟨ht1', hdi', hci'⟩ := htr (di, ci, t) (by simp)
    have ht1 : (1 : Int) ≤ t := ht1'
    have hdi : di < act.length := hdi'
    have hci : ci < act.length := hci'
    have hdmem : act.getD di defaultMember ∈ act := by
      rw [List.getD_eq_getElem act defaultMember hdi]
      exact List.getElem_mem hdi
    have hcmem : act.getD ci defaultMember ∈ act := by
      rw [List.getD_eq_getElem act defaultMember hci]
      exact List.getElem_mem hci
    intro tx htx
    simp only [settlement_txs] at htx
    rcases List.mem_cons.mp htx with rfl | htx'
    · exact ⟨rfl, rfl, Or.inl ⟨show (0 : Int) < t by omega, _, hdmem, _, hcmem, rfl, rfl⟩⟩
    rcases List.mem_cons.mp htx' with rfl | htx''
    · exact ⟨rfl, rfl, Or.inr ⟨show (-t : Int) < 0 by omega, _, hdmem, _, hcmem, rfl, rfl⟩⟩
    · exact ih (fun tr h => htr tr (by simp [h])) tx htx''

theorem settlement_txs_delta (act : List Member) (pid : Nat) (trs : List (Nat × Nat × Int))
    (hnd : (act.map (fun m => m.id)).Nodup)
    (htr : ∀ tr ∈ trs, tr.1 < act.length ∧ tr.2.1 < act.length)
    (i : Nat) (hi : i < act.length) :
    sumI ((settlement_txs act pid trs).map (deltaFor (act[i].id))) = netDelta trs i := by
  induction trs with
  | nil => simp [settlement_txs, netDelta, sumI]
  | cons tr trs ih =>
    obtain ⟨di, ci, t⟩ := tr
    obtain ⟨hdi', hci'⟩ := htr (di, ci, t) (by simp)
    have hdi : di < act.length := hdi'
    have hci : ci < act.length := hci'
    have hidIff : ∀ (j : Nat) (hj : j < act.length), (act[j].id = act[i].id) ↔ j = i := by
      intro j hj
      constructor
      · intro hid
        have hj2 : j < (act.map (fun m => m.id)).length := by simpa using hj
        have hi2 : i < (act.map (fun m => m.id)).length := by simpa using hi
        have hmapj : (act.map (fun m => m.id))[j] = (act.map (fun m => m.id))[i] := by
          rw [List.getElem_map, List.getElem_map]
          exact hid
        exact (List.Nodup.getElem_inj_iff hnd).mp hmapj
      · intro hj'; subst hj'; rfl
    have hd1 : deltaFor (act[i].id)
        ({ tx_type := TxType.deposit, amount := t
         , description := some ("Settlement payment to " ++ (act.getD ci defaultMember).name)
         , payer_id := (act.getD di defaultMember).id, period_id := pid
         , member_deltas := [((act.getD di defaultMember).id, t)], fund_delta := 0 } : Tx) =
        (if di = i then t else 0) := by
      simp only [deltaFor, deltaSum]
      rw [List.getD_eq_getElem act defaultMember hdi]
      by_cases hdii : di = i
      · subst hdii; simp
      · rw [if_neg (fun hc => hdii ((hidIff di hdi).mp hc)), if_neg hdii]
        omega
    have hd2 : deltaFor (act[i].id)
        ({ tx_type := TxType.deposit, amount := -t
         , description := some ("Settlement payment from " ++ (act.getD di defaultMember).name)
         , payer_id := (act.getD ci defaultMember).id, period_id := pid
         , member_deltas := [((act.getD ci defaultMember).id, -t)], fund_delta := 0 } : Tx) =
        (if ci = i then -t else 0) := by
      simp only [deltaFor, deltaSum]
      rw [List.getD_eq_getElem act defaultMember hci]
      by_cases hcii : ci = i
      · subst hcii; simp
      · rw [if_neg (fun hc => hcii ((hidIff ci hci).mp hc)), if_neg hcii]
        omega
    simp only [settlement_txs, List.map_cons, sumI, netDelta]
    rw [hd1, hd2, ih (fun tr h => htr tr (by simp [h]))]
    by_cases hdii : di = i <;> by_cases hcii : ci = i <;>
      simp only [hdii, hcii, if_pos, if_neg, ite_true, ite_false] <;> omega

theorem settle_eq (s : DB) (p : Period) (name : String)
    (hp : get_current_period s = some p) :
    settle_current_period s name = some
      { s with
        txs := s.txs ++ generated_settlement_txs s ++ fund_distribution_txs s p.id
      , periods :=
          (s.periods.map (fun q =>
            if q.id = p.id then { q with is_settled := true, has_end_date := true } else q))
          ++ [{ id := s.next_period_id, name := name, is_settled := false, has_end_date := false }]
      , next_period_id := s.next_period_id + 1 } := by
  simp [settle_current_period, hp]

theorem generated_eq (s : DB) (p : Period) (hp : get_current_period s = some p) :
    generated_settlement_txs s =
      settlement_txs (get_active_members s) p.id (get_settlement_plan s p.id) := by
  simp [generated_settlement_txs, hp]

theorem member_balance_append (s s₂ : DB) (l : List Tx) (h : s₂.txs = s.txs ++ l)
    (pid mid : Nat) :
    member_balance s₂ pid mid = member_balance s pid mid +
      sumI ((l.filter (fun t => t.period_id = pid)).map (deltaFor mid)) := by
  simp [member_balance, txsInPeriod, h, List.filter_append, sumI_append]

theorem member_balance_all_append (s s₂ : DB) (l : List Tx) (h : s₂.txs = s.txs ++ l)
    (mid : Nat) :
    member_balance_all s₂ mid = member_balance_all s mid + sumI (l.map (deltaFor mid)) := by
  simp [member_balance_all, h, sumI_append]

theorem fund_balance_append (s s₂ : DB) (l : List Tx) (h : s₂.txs = s.txs ++ l) :
    fund_balance s₂ = fund_balance s + sumI (l.map (fun t => t.fund_delta)) := by
  simp [fund_balance, h, sumI_append]

theorem fund_distribution_deltaFor (s : DB) (pid mid : Nat) :
    ∀ tx ∈ fund_distribution_txs s pid, deltaFor mid tx = 0 := by
  intro tx htx
  simp only [fund_distribution_txs] at htx
  split at htx
  · rcases List.mem_singleton.mp htx with rfl
    rfl
  · simp at htx

theorem fund_distribution_fund_delta (s : DB) (pid : Nat) :
    ∀ tx ∈ fund_distribution_txs s pid, tx.fund_delta = 0 := by
  intro tx htx
  simp only [fund_distribution_txs] at htx
  split at htx
  · rcases List.mem_singleton.mp htx with rfl
    rfl
  · simp at htx

theorem period_balances_length (s : DB) (pid : Nat) :
    (period_balances s pid).length = (get_active_members s).length := by
  simp [period_balances]

theorem period_balances_getI (s : DB) (pid i : Nat)
    (hi : i < (get_active_members s).length) :
    getI (period_balances s pid) i =
      member_balance s pid ((get_active_members s)[i]).id := by
  rw [getI, period_balances,
    List.getD_eq_getElem _ _ (by simpa using hi), List.getElem_map]

theorem sumI_filter_zero (l : List Tx) (p : Tx → Bool) (f : Tx → Int)
    (h : ∀ tx ∈ l, f tx = 0) : sumI ((l.filter p).map f) = 0 :=
  sumI_map_zero _ f (fun tx htx => h tx (List.mem_filter.mp htx).1)

/-- C1 (amended): when the active-member balances of the closing period sum
to zero, `settle_current_period` zeroes them exactly: recomputing every
active-member balance for the just-closed period after settlement gives 0
(the active-member ids must be distinct, as the schema guarantees). -/
theorem settlement_zeroing_of_sum_zero (s : DB) (p : Period) (name : String) (s' : DB)
    (hp : get_current_period s = some p)
    (hnd : ((get_active_members s).map (fun m => m.id)).Nodup)
    (hsum : sumI (period_balances s p.id) = 0)
    (hs : settle_current_period s name = some s') :
    ∀ m ∈ get_active_members s, member_balance s' p.id m.id = 0 := by
  have hX := settle_eq s p name hp
  rw [hs] at hX
  have hrec := Option.some.inj hX
  have htxs : s'.txs = s.txs ++
      (generated_settlement_txs s ++ fund_distribution_txs s p.id) := by
    rw [hrec]
    exact List.append_assoc _ _ _
  intro m hm
  obtain ⟨i, hi, rfl⟩ := List.mem_iff_getElem.mp hm
  have hmb := member_balance_append s s'
      (generated_settlement_txs s ++ fund_distribution_txs s p.id)
      htxs p.id ((get_active_members s)[i]).id
  rw [hmb, List.filter_append, List.map_append, sumI_append]
  have hgenfil : (generated_settlement_txs s).filter (fun t => t.period_id = p.id) =
      generated_settlement_txs s := by
    apply List.filter_eq_self.mpr
    intro tx htx
    rw [generated_eq s p hp] at htx
    have := (settlement_txs_mem _ _ _ tx htx).1
    simp [this]
  rw [hgenfil]
  have hfund : sumI (((fund_distribution_txs s p.id).filter
      (fun t => t.period_id = p.id)).map (deltaFor ((get_active_members s)[i]).id)) = 0 :=
    sumI_filter_zero _ _ _ (fund_distribution_deltaFor s p.id _)
  rw [hfund]
  have htrs := settleLoop_transfers (countNZ (period_balances s p.id)) (period_balances s p.id)
  have hlen := period_balances_length s p.id
  have hdelta : sumI ((generated_settlement_txs s).map
      (deltaFor ((get_active_members s)[i]).id)) = netDelta (get_settlement_plan s p.id) i := by
    rw [generated_eq s p hp]
    exact settlement_txs_delta _ p.id _ hnd
      (fun tr htr => by
        have := htrs tr htr
        omega) i hi
  rw [hdelta]
  have hbal : member_balance s p.id ((get_active_members s)[i]).id =
      getI (period_balances s p.id) i := (period_balances_getI s p.id i hi).symm
  rw [hbal]
  have hfin := settleLoop_getI (countNZ (period_balances s p.id)) (period_balances s p.id) i
  have hzero := settleLoop_final_zero (period_balances s p.id) hsum i
  rw [hfin] at hzero
  rw [add_zero]
  exact hzero

/-- C1 (counterexample): a period holding one active member (Alice) and one
deposit of 100.00 — a sequence of deposits and expenses — settles without
zeroing: the recomputed balance for the closed period is still 10000 minor
units, far above the claimed 1-minor-unit tolerance.  The greedy netting
only matches debtors against creditors, and a deposit-induced surplus has no
debtor to pay it out. -/
theorem settlement_zeroing_fails_on_deposit :
    (⟨1, "Alice", true, false⟩ : Member) ∈ get_active_members depositState ∧
    get_current_period depositState = some ⟨1, "Initial Period", false, false⟩ ∧
    settle_current_period depositState "Next" = some depositSettled ∧
    member_balance depositSettled 1 1 = 10000 ∧
    ¬ (|member_balance depositSettled 1 1| ≤ 1) := by decide

/-- C1 (witness): Alice paid a 10.00 dinner split with Bob (balances +500
and -500, summing to zero); after settlement both recomputed balances for
the closed period are exactly zero. -/
theorem settlement_zeroing_witness :
    sumI (period_balances dinnerState 1) = 0 ∧
    (∀ m ∈ get_active_members dinnerState, member_balance dinnerSettled 1 m.id = 0) :=
  ⟨by decide,
   settlement_zeroing_of_sum_zero dinnerState ⟨1, "Initial Period", false, false⟩
     "Next" dinnerSettled (by decide) (by decide) (by decide) (by decide)⟩

/-- C5 (amended): the greedy netting produces at most
`activeMemberCount - 1` matched-pair transfers, and therefore at most
`2 * (activeMemberCount - 1)` settlement transaction rows (each matched
pair writes one debtor row and one creditor row). -/
theorem settlement_plan_size_bounds (s : DB) (pid : Nat) :
    (get_settlement_plan s pid).length ≤ (get_active_members s).length - 1 ∧
    (generated_settlement_txs s).length ≤ 2 * ((get_active_members s).length - 1) := by
  have h1 : (get_settlement_plan s pid).length ≤ countNZ (period_balances s pid) - 1 :=
    settleLoop_length_le _ _
  have h2 : countNZ (period_balances s pid) ≤ (period_balances s pid).length :=
    countNZ_le_length _
  have h3 := period_balances_length s pid
  constructor
  · omega
  · cases hp : get_current_period s with
    | none => simp [generated_settlement_txs, hp]
    | some p =>
      rw [generated_eq s p hp, settlement_txs_length]
      have h1' : (get_settlement_plan s p.id).length ≤ countNZ (period_balances s p.id) - 1 :=
        settleLoop_length_le _ _
      have h2' : countNZ (period_balances s p.id) ≤ (period_balances s p.id).length :=
        countNZ_le_length _
      have h3' := period_balances_length s p.id
      omega

/-- C5 (counterexample): with 2 active members and one debtor-creditor pair,
settlement writes 2 settlement transaction rows (one for the debtor, one for
the creditor), exceeding the claimed bound of `N - 1 = 1` transactions. -/
theorem settlement_tx_count_exceeds_bound :
    (get_active_members dinnerState).length = 2 ∧
    (generated_settlement_txs dinnerState).length = 2 ∧
    ¬ ((generated_settlement_txs dinnerState).length ≤
        (get_active_members dinnerState).length - 1) := by decide

/-- C6: every settlement transaction written by `settle_current_period` is a
deposit-typed row tagged to the closing period (never the newly opened one):
the debtor row has strictly positive amount and description "Settlement
payment to creditor", the creditor row strictly negative amount and
description "Settlement payment from debtor". -/
theorem settlement_tx_shape (s : DB) (p : Period) (name : String)
    (hp : get_current_period s = some p)
    (hfresh : p.id ≠ s.next_period_id) :
    ∃ s', settle_current_period s name = some s' ∧
      ({ id := s.next_period_id, name := name, is_settled := false, has_end_date := false } : Period)
        ∈ s'.periods ∧
      ∀ tx ∈ generated_settlement_txs s,
        tx.tx_type = TxType.deposit ∧ tx.period_id = p.id ∧ tx.period_id ≠ s.next_period_id ∧
        ((0 < tx.amount ∧ ∃ d ∈ get_active_members s, ∃ c ∈ get_active_members s,
            tx.payer_id = d.id ∧ tx.description = some ("Settlement payment to " ++ c.name)) ∨
         (tx.amount < 0 ∧ ∃ d ∈ get_active_members s, ∃ c ∈ get_active_members s,
            tx.payer_id = c.id ∧ tx.description = some ("Settlement payment from " ++ d.name))) := by
  refine ⟨_, settle_eq s p name hp, ?_, ?_⟩
  · simp
  · intro tx htx
    have htrs := settleLoop_transfers (countNZ (period_balances s p.id)) (period_balances s p.id)
    have hlen := period_balances_length s p.id
    have hshape := settlement_txs_shape (get_active_members s) p.id (get_settlement_plan s p.id)
      (fun tr htr => by
        have := htrs tr htr
        refine ⟨this.1, ?_, ?_⟩ <;> omega) tx (by rwa [generated_eq s p hp] at htx)
    obtain ⟨hty, hpid, hrest⟩ := hshape
    exact ⟨hty, hpid, by rw [hpid]; exact hfresh, hrest⟩

/-- C6 (witness): the dinner scenario settles, opening period 2 while the
settlement rows stay on period 1. -/
theorem settlement_tx_shape_witness :
    ∃ s', settle_current_period dinnerState "Next" = some s' ∧
      ({ id := 2, name := "Next", is_settled := false, has_end_date := false } : Period)
        ∈ s'.periods := by
  obtain ⟨s', hs', hmem, -⟩ := settlement_tx_shape dinnerState
    ⟨1, "Initial Period", false, false⟩ "Next" (by decide) (by decide)
  exact ⟨s', hs', hmem⟩

theorem record_deposit_inv (s : DB) (d : Option String) (a : Int) (n : String) (s' : DB)
    (hs : record_deposit s d a n = some s') :
    0 < a ∧ ∃ p mid, get_current_period s = some p ∧ findMemberId s n = some mid ∧
      ((mid = VIRTUAL_MEMBER_ID ∧ s' = { s with txs := s.txs ++
          [{ tx_type := TxType.deposit, amount := a, description := d
           , payer_id := mid, period_id := p.id, member_deltas := [], fund_delta := a }] }) ∨
       (mid ≠ VIRTUAL_MEMBER_ID ∧ s' = { s with txs := s.txs ++
          [{ tx_type := TxType.deposit, amount := a, description := d
           , payer_id := mid, period_id := p.id, member_deltas := [(mid, a)], fund_delta := 0 }] })) := by
  simp only [record_deposit] at hs
  split at hs
  · exact absurd hs (by simp)
  · rename_i ha
    cases hper : get_current_period s with
    | none => rw [hper] at hs; exact absurd hs (by simp)
    | some p =>
      cases hmid : findMemberId s n with
      | none => rw [hper, hmid] at hs; exact absurd hs (by simp)
      | some mid =>
        rw [hper, hmid] at hs
        simp only at hs
        refine ⟨by omega, p, mid, rfl, rfl, ?_⟩
        split at hs
        · rename_i hv
          exact Or.inl ⟨hv, (Option.some.inj hs).symm⟩
        · rename_i hv
          exact Or.inr ⟨hv, (Option.some.inj hs).symm⟩

theorem record_expense_inv (s : DB) (d : Option String) (a : Int) (n : String) (s' : DB)
    (hs : record_expense s d a n = some s') :
    0 < a ∧ (get_active_members s).length ≠ 0 ∧
    ∃ p payerId, get_current_period s = some p ∧ findMemberId s n = some payerId ∧
      s' = { s with
        txs := s.txs ++ [expense_tx s d a payerId p.id]
      , members := if (expense_split s a payerId).2 = 0 then s.members
                   else write_flags s.members (expense_rotation s).2 } := by
  simp only [record_expense] at hs
  split at hs
  · exact absurd hs (by simp)
  · rename_i ha
    cases hper : get_current_period s with
    | none => rw [hper] at hs; exact absurd hs (by simp)
    | some p =>
      cases hmid : findMemberId s n with
      | none => rw [hper, hmid] at hs; exact absurd hs (by simp)
      | some payerId =>
        rw [hper, hmid] at hs
        simp only at hs
        split at hs
        · exact absurd hs (by simp)
        · rename_i hact
          exact ⟨by omega, hact, p, payerId, rfl, rfl, (Option.some.inj hs).symm⟩

theorem record_deposit_periods (s : DB) (d : Option String) (a : Int) (n : String) (s' : DB)
    (hs : record_deposit s d a n = some s') : s'.periods = s.periods := by
  obtain ⟨-, p, mid, -, -, h | h⟩ := record_deposit_inv s d a n s' hs <;> rw [h.2]

theorem record_expense_periods (s : DB) (d : Option String) (a : Int) (n : String) (s' : DB)
    (hs : record_expense s d a n = some s') : s'.periods = s.periods := by
  obtain ⟨-, -, p, payerId, -, -, h⟩ := record_expense_inv s d a n s' hs
  rw [h]

theorem filter_singleton_all {α : Type} (pr : α → Bool) (l : List α) (x : α)
    (hf : l.filter pr = [x]) : ∀ y ∈ l, pr y → y = x := by
  intro y hy hpy
  have : y ∈ l.filter pr := List.mem_filter.mpr ⟨hy, hpy⟩
  rw [hf] at this
  simpa using this

theorem settle_openCount (s : DB) (name : String) (s' : DB)
    (h1 : openCount s = 1) (hs : settle_current_period s name = some s') :
    openCount s' = 1 := by
  obtain ⟨a, hfa⟩ := List.length_eq_one.mp h1
  cases hp : get_current_period s with
  | none => simp [settle_current_period, hp] at hs
  | some p =>
    have hp' : s.periods.find? (fun q => !q.is_settled) = some p := hp
    have hpmem : p ∈ s.periods := List.mem_of_find?_eq_some hp'
    have hpopen := List.find?_some hp'
    have hpa : p = a := filter_singleton_all _ _ _ hfa p hpmem hpopen
    have hX := settle_eq s p name hp
    rw [hs] at hX
    have hrec := Option.some.inj hX
    have hper : s'.periods =
        (s.periods.map (fun q =>
          if q.id = p.id then { q with is_settled := true, has_end_date := true } else q))
        ++ [{ id := s.next_period_id, name := name, is_settled := false, has_end_date := false }] := by
      rw [hrec]
    rw [openCount, hper, List.filter_append]
    have hnil : (s.periods.map (fun q =>
        if q.id = p.id then { q with is_settled := true, has_end_date := true } else q)).filter
          (fun q => !q.is_settled) = [] := by
      rw [List.filter_eq_nil_iff]
      intro q hq
      obtain ⟨r, hr, rfl⟩ := List.mem_map.mp hq
      by_cases hid : r.id = p.id
      · simp [hid]
      · simp only [if_neg hid]
        intro hopen
        have : r = a := filter_singleton_all _ _ _ hfa r hr hopen
        rw [this, ← hpa] at hid
        exact hid rfl
    rw [hnil]
    rfl

/-- C7 (amended): starting from a state with exactly one unsettled period,
the engine operations preserve the invariant — adding a member, recording a
deposit or an expense leave the periods untouched, and settlement closes the
unique open period while opening exactly one new one; the initial store
satisfies it.  The database-level `create_new_period`, however, inserts a
second open period without settling the current one (see the
counterexample), so the invariant holds only for states that avoid direct
`create_new_period` calls. -/
theorem one_open_period_preserved (s : DB) (h1 : openCount s = 1) :
    openCount initState = 1 ∧
    (∀ name, openCount (add_new_member s name) = 1) ∧
    (∀ d a n s', record_deposit s d a n = some s' → openCount s' = 1) ∧
    (∀ d a n s', record_expense s d a n = some s' → openCount s' = 1) ∧
    (∀ name s', settle_current_period s name = some s' → openCount s' = 1) := by
  refine ⟨by decide, fun name => h1, ?_, ?_, ?_⟩
  · intro d a n s' hs
    rw [openCount, record_deposit_periods s d a n s' hs]
    exact h1
  · intro d a n s' hs
    rw [openCount, record_expense_periods s d a n s' hs]
    exact h1
  · intro name s' hs
    exact settle_openCount s name s' h1 hs

/-- C7 (counterexample): `create_new_period` on the initial store (which has
exactly one unsettled period) leaves two unsettled periods — the operation
inserts a fresh open period without settling the current one, exactly as
`test_create_new_period` exercises it. -/
theorem create_period_breaks_one_open_invariant :
    openCount initState = 1 ∧
    openCount (create_new_period initState "Extra") = 2 := by decide

/-- C7 (witness): the dinner scenario has one open period, and still exactly
one after settlement. -/
theorem one_open_period_preserved_witness :
    openCount dinnerState = 1 ∧ openCount dinnerSettled = 1 :=
  ⟨by decide,
   (one_open_period_preserved dinnerState (by decide)).2.2.2.2 "Next" dinnerSettled (by decide)⟩



theorem firstFalse_some_lt (l : List Bool) (i : Nat) (h : firstFalse l = some i) :
    i < l.length := by
  induction l generalizing i with
  | nil => simp [firstFalse] at h
  | cons b bs ih =>
    simp only [firstFalse] at h
    by_cases hb : b
    · rw [if_pos hb] at h
      cases hf : firstFalse bs with
      | none =>
        rw [hf] at h
        exact absurd h (by simp)
      | some j =>
        rw [hf] at h
        have h' : some (j + 1) = some i := h
        obtain rfl := Option.some.inj h'
        have := ih j hf
        simp only [List.length_cons]
        omega
    · rw [if_neg hb] at h
      obtain rfl := Option.some.inj h
      simp only [List.length_cons]
      omega

theorem assignRemainder_fst_lt (flags : List Bool) (h : flags.length ≠ 0) :
    (assignRemainder flags).1 < flags.length := by
  rw [assignRemainder]
  cases hf : firstFalse flags with
  | none => simpa using Nat.pos_of_ne_zero h
  | some i => simpa using firstFalse_some_lt flags i hf

theorem sumI_map_const {α : Type} (l : List α) (c : Int) :
    sumI (l.map (fun _ => c)) = (l.length : Int) * c := by
  induction l with
  | nil => simp [sumI]
  | cons x xs ih =>
    simp only [List.map_cons, sumI, ih, List.length_cons]
    push_cast
    ring

theorem sumI_single (act : List Member) (e : Nat) (v : Int)
    (hnd : (act.map (fun m => m.id)).Nodup) (hmem : e ∈ act.map (fun m => m.id)) :
    sumI (act.map (fun m => if e = m.id then v else 0)) = v := by
  induction act with
  | nil => simp at hmem
  | cons m ms ih =>
    have hnd' : m.id ∉ ms.map (fun m => m.id) ∧ (ms.map (fun m => m.id)).Nodup := by
      simpa using hnd
    have hmem' : e = m.id ∨ e ∈ ms.map (fun m => m.id) := by
      simpa using hmem
    by_cases hm : e = m.id
    · simp only [List.map_cons, sumI, if_pos hm]
      have hrest : sumI (ms.map (fun x => if e = x.id then v else 0)) = 0 := by
        apply sumI_map_zero
        intro x hx
        rw [if_neg]
        intro hc
        apply hnd'.1
        exact List.mem_map.mpr ⟨x, hx, hc.symm.trans hm⟩
      rw [hrest]
      omega
    · rcases hmem' with hmem' | hmem'
      · exact absurd hmem' hm
      · simp only [List.map_cons, sumI, if_neg hm, ih hnd'.2 hmem']
        omega



theorem sumI_map_deltaSum (act : List Member) (ds : List (Nat × Int))
    (hnd : (act.map (fun m => m.id)).Nodup)
    (hmem : ∀ d ∈ ds, d.1 ∈ act.map (fun m => m.id)) :
    sumI (act.map (fun m => deltaSum m.id ds)) = sumI (ds.map (fun d => d.2)) := by
  induction ds with
  | nil =>
    simp only [deltaSum, List.map_nil, sumI]
    exact sumI_map_zero act _ (fun a ha => rfl)
  | cons d ds ih =>
    have hsplit : sumI (act.map (fun m => deltaSum m.id (d :: ds))) =
        sumI (act.map (fun m => if d.1 = m.id then d.2 else 0)) +
        sumI (act.map (fun m => deltaSum m.id ds)) := by
      rw [← sumI_map_add]
      rfl
    rw [hsplit, sumI_single act d.1 d.2 hnd (hmem d (by simp)),
      ih (fun x hx => hmem x (by simp [hx]))]
    simp [sumI]

theorem write_flags_filter_map (ms : List Member) (fl : List Bool) :
    ((write_flags ms fl).filter (fun m => m.is_active)).map (fun m => m.id) =
      (ms.filter (fun m => m.is_active)).map (fun m => m.id) := by
  induction ms generalizing fl with
  | nil => simp [write_flags]
  | cons m ms ih =>
    simp only [write_flags]
    by_cases hact : m.is_active
    · rw [if_pos hact]
      cases fl with
      | nil => rfl
      | cons f fs =>
        have hact' : ({ m with paid_remainder_in_cycle := f } : Member).is_active = true := hact
        simp [List.filter_cons, hact, hact', ih fs]
    · rw [if_neg hact]
      simp [List.filter_cons, hact, ih fl]

theorem sumI_map_by_id (ms1 ms2 : List Member) (f : Nat → Int)
    (h : ms1.map (fun m => m.id) = ms2.map (fun m => m.id)) :
    sumI (ms1.map (fun m => f m.id)) = sumI (ms2.map (fun m => f m.id)) := by
  have h2 : ms1.map (fun m => f m.id) = ms2.map (fun m => f m.id) := by
    have e1 : ms1.map (fun m => f m.id) = (ms1.map (fun m => m.id)).map f := by
      rw [List.map_map]; rfl
    have e2 : ms2.map (fun m => f m.id) = (ms2.map (fun m => m.id)).map f := by
      rw [List.map_map]; rfl
    rw [e1, e2, h]
  rw [h2]

theorem total_money_append_tx (s s' : DB) (tx : Tx)
    (htxs : s'.txs = s.txs ++ [tx])
    (hids : (get_active_members s').map (fun m => m.id) =
            (get_active_members s).map (fun m => m.id)) :
    total_money s' = total_money s +
      sumI ((get_active_members s).map (fun m => deltaFor m.id tx)) + tx.fund_delta := by
  have hbal : ∀ mid, member_balance_all s' mid = member_balance_all s mid + deltaFor mid tx := by
    intro mid
    rw [member_balance_all_append s s' [tx] htxs]
    simp [sumI]
  have hfund : fund_balance s' = fund_balance s + tx.fund_delta := by
    rw [fund_balance_append s s' [tx] htxs]
    simp [sumI]
  rw [total_money, total_money, hfund]
  rw [sumI_map_by_id _ _ _ hids]
  have : sumI ((get_active_members s).map (fun m => member_balance_all s' m.id)) =
      sumI ((get_active_members s).map (fun m => member_balance_all s m.id)) +
      sumI ((get_active_members s).map (fun m => deltaFor m.id tx)) := by
    rw [← sumI_map_add]
    congr 1
    apply List.map_congr_left
    intro m hm
    exact hbal m.id
  rw [this]
  ring



theorem expense_split_identity (s : DB) (a : Int) (payerId : Nat) :
    (expense_split s a payerId).1 * ((get_active_members s).length : Int) +
      (expense_split s a payerId).2 = a - expense_offset s a payerId := by
  simp only [expense_split, split_shares]
  ring

theorem expense_tx_deltas_sum (s : DB) (d : Option String) (a : Int) (payerId pid : Nat) :
    sumI ((expense_tx s d a payerId pid).member_deltas.map (fun dd => dd.2)) =
      (if payerId = VIRTUAL_MEMBER_ID then 0 else a) - (a - expense_offset s a payerId) := by
  simp only [expense_tx]
  rw [List.map_append, List.map_append, sumI_append, sumI_append]
  have hp : sumI (((if payerId = VIRTUAL_MEMBER_ID then ([] : List (Nat × Int))
      else [(payerId, a)]).map (fun dd => dd.2))) =
      (if payerId = VIRTUAL_MEMBER_ID then 0 else a) := by
    split <;> simp [sumI]
  have hb : sumI (((get_active_members s).map
      (fun m => (m.id, -(expense_split s a payerId).1))).map (fun dd => dd.2)) =
      ((get_active_members s).length : Int) * (-(expense_split s a payerId).1) := by
    rw [List.map_map]
    exact sumI_map_const _ _
  have hr : sumI (((if (expense_split s a payerId).2 = 0 then ([] : List (Nat × Int))
      else [(((get_active_members s).getD (expense_rotation s).1 defaultMember).id,
             -(expense_split s a payerId).2)]).map (fun dd => dd.2))) =
      -(expense_split s a payerId).2 := by
    split
    · rename_i h; simp [sumI, h]
    · simp [sumI]
  rw [hp, hb, hr]
  have hiden := expense_split_identity s a payerId
  have h2 : ((get_active_members s).length : Int) * (-(expense_split s a payerId).1) +
      -(expense_split s a payerId).2 = -(a - expense_offset s a payerId) := by
    ring_nf
    ring_nf at hiden
    linarith
  linarith [h2]

theorem expense_tx_delta_ids (s : DB) (d : Option String) (a : Int) (payerId pid : Nat)
    (hact : (get_active_members s).length ≠ 0)
    (hpayer : payerId = VIRTUAL_MEMBER_ID ∨
      payerId ∈ (get_active_members s).map (fun m => m.id)) :
    ∀ dd ∈ (expense_tx s d a payerId pid).member_deltas,
      dd.1 ∈ (get_active_members s).map (fun m => m.id) := by
  intro dd hdd
  simp only [expense_tx] at hdd
  rcases List.mem_append.mp hdd with hdd' | h3
  · rcases List.mem_append.mp hdd' with h1 | h2
    · by_cases hv : payerId = VIRTUAL_MEMBER_ID
      · simp [hv] at h1
      · simp only [if_neg hv] at h1
        obtain rfl := List.mem_singleton.mp h1
        rcases hpayer with hpayer | hpayer
        · exact absurd hpayer hv
        · exact hpayer
    · obtain ⟨m, hm, rfl⟩ := List.mem_map.mp h2
      exact List.mem_map.mpr ⟨m, hm, rfl⟩
  · by_cases hz : (expense_split s a payerId).2 = 0
    · simp [hz] at h3
    · simp only [if_neg hz] at h3
      obtain rfl := List.mem_singleton.mp h3
      have hlt : (expense_rotation s).1 < (get_active_members s).length := by
        have := assignRemainder_fst_lt
          ((get_active_members s).map (fun m => m.paid_remainder_in_cycle))
          (by simpa using hact)
        simpa using this
      rw [List.getD_eq_getElem _ _ hlt]
      exact List.mem_map.mpr ⟨_, List.getElem_mem hlt, rfl⟩

theorem settle_fund_balance (s : DB) (name : String) (s' : DB)
    (hs : settle_current_period s name = some s') : fund_balance s' = fund_balance s := by
  cases hp : get_current_period s with
  | none => simp [settle_current_period, hp] at hs
  | some p =>
    have hX := settle_eq s p name hp
    rw [hs] at hX
    have hrec := Option.some.inj hX
    have htxs : s'.txs = s.txs ++
        (generated_settlement_txs s ++ fund_distribution_txs s p.id) := by
      rw [hrec]
      exact List.append_assoc _ _ _
    rw [fund_balance_append s s' _ htxs, List.map_append, sumI_append]
    have h1 : sumI ((generated_settlement_txs s).map (fun t => t.fund_delta)) = 0 := by
      apply sumI_map_zero
      intro tx htx
      rw [generated_eq s p hp] at htx
      exact (settlement_txs_mem _ _ _ tx htx).2.2
    have h2 : sumI ((fund_distribution_txs s p.id).map (fun t => t.fund_delta)) = 0 :=
      sumI_map_zero _ _ (fund_distribution_fund_delta s p.id)
    rw [h1, h2]
    ring

theorem reachable_fund_nonneg (s : DB) (h : Reachable s) : 0 ≤ fund_balance s := by
  induction h with
  | init => decide
  | add s name h ih => exact ih
  | newPeriod s name h ih => exact ih
  | deposit s d a n s' h hs ih =>
    obtain ⟨ha, p, mid, hp, hm, hcase⟩ := record_deposit_inv s d a n s' hs
    rcases hcase with ⟨hv, hrec⟩ | ⟨hv, hrec⟩ <;>
      (rw [fund_balance_append s s' _ (by rw [hrec])]; simp [sumI]; omega)
  | expense s d a n s' h hs ih =>
    obtain ⟨ha, hact, p, payerId, hp, hm, hrec⟩ := record_expense_inv s d a n s' hs
    rw [fund_balance_append s s' [expense_tx s d a payerId p.id] (by rw [hrec])]
    have hfd : (expense_tx s d a payerId p.id).fund_delta =
        -(expense_offset s a payerId) := rfl
    simp only [List.map_cons, List.map_nil, sumI, hfd]
    by_cases hv : payerId = VIRTUAL_MEMBER_ID
    · simp only [expense_offset, if_pos hv]
      omega
    · simp only [expense_offset, if_neg hv]
      omega
  | settle s n s' h hs ih =>
    rw [settle_fund_balance s n s' hs]
    exact ih



theorem deltaSum_zero (mid : Nat) (ds : List (Nat × Int)) (h : ∀ dd ∈ ds, dd.2 = 0) :
    deltaSum mid ds = 0 := by
  induction ds with
  | nil => rfl
  | cons dd ds ih =>
    simp only [deltaSum]
    rw [ih (fun x hx => h x (by simp [hx]))]
    have := h dd (by simp)
    split <;> omega

/-- C3 (amended): an individual expense split (payer an active real member)
conserves the total money in the system (sum of active-member all-time
balances plus the public fund); a shared expense split decreases that total
by exactly its amount (the fund absorbs `min(amount, fund)`, the members
absorb the residual, and no one is credited). -/
theorem expense_money_conservation (s : DB) (d : Option String) (a : Int) (pn : String)
    (s' : DB)
    (hnd : ((get_active_members s).map (fun m => m.id)).Nodup)
    (hs : record_expense s d a pn = some s') :
    (∀ pm, s.members.find? (fun m => m.name = pn) = some pm → pm.is_active = true →
       pn ≠ VIRTUAL_MEMBER_INTERNAL_NAME → pm.id ≠ VIRTUAL_MEMBER_ID →
       total_money s' = total_money s) ∧
    (pn = VIRTUAL_MEMBER_INTERNAL_NAME → total_money s' = total_money s - a) := by
  obtain ⟨ha, hact, p, payerId, hp, hm, hrec⟩ := record_expense_inv s d a pn s' hs
  have hids : (get_active_members s').map (fun m => m.id) =
      (get_active_members s).map (fun m => m.id) := by
    rw [hrec]
    simp only [get_active_members]
    split
    · rfl
    · exact write_flags_filter_map s.members (expense_rotation s).2
  have htot := total_money_append_tx s s' (expense_tx s d a payerId p.id)
    (by rw [hrec]) hids
  simp only [deltaFor] at htot
  have hfd : (expense_tx s d a payerId p.id).fund_delta =
      -(expense_offset s a payerId) := rfl
  have hsum2 := expense_tx_deltas_sum s d a payerId p.id
  constructor
  · intro pm hfind hactive hnv hid0
    have hpayer : payerId = pm.id := by
      rw [findMemberId, if_neg hnv, hfind] at hm
      have hm' : some pm.id = some payerId := hm
      exact (Option.some.inj hm').symm
    have hfind' : s.members.find? (fun m => m.name = pn) = some pm := hfind
    have hpmact : pm ∈ get_active_members s :=
      List.mem_filter.mpr ⟨List.mem_of_find?_eq_some hfind', hactive⟩
    have hin : payerId ∈ (get_active_members s).map (fun m => m.id) :=
      hpayer ▸ List.mem_map.mpr ⟨pm, hpmact, rfl⟩
    have hdsum := sumI_map_deltaSum (get_active_members s)
      (expense_tx s d a payerId p.id).member_deltas hnd
      (expense_tx_delta_ids s d a payerId p.id hact (Or.inr hin))
    have hvneg : payerId ≠ VIRTUAL_MEMBER_ID := by rw [hpayer]; exact hid0
    rw [if_neg hvneg] at hsum2
    have hoff : expense_offset s a payerId = 0 := by simp [expense_offset, hvneg]
    rw [hoff] at hsum2
    rw [htot, hdsum, hsum2, hfd, hoff]
    ring
  · intro hvn
    have hpayer : payerId = VIRTUAL_MEMBER_ID := by
      rw [findMemberId, if_pos hvn] at hm
      exact (Option.some.inj hm).symm
    have hdsum := sumI_map_deltaSum (get_active_members s)
      (expense_tx s d a payerId p.id).member_deltas hnd
      (expense_tx_delta_ids s d a payerId p.id hact (Or.inl hpayer))
    rw [if_pos hpayer] at hsum2
    rw [htot, hdsum, hsum2, hfd]
    ring

/-- C4: for a shared expense of amount `a` with fund balance `F` (reachable
states have `F >= 0`), the fund offset is exactly `min(a, F)`, the members
collectively bear exactly the residual `a - min(a, F)`, the fund balance
never becomes negative, and when `F >= a` no member balance changes at
all. -/
theorem shared_expense_fund_offset (s : DB) (d : Option String) (a : Int) (s' : DB)
    (hreach : Reachable s)
    (hs : record_expense s d a VIRTUAL_MEMBER_INTERNAL_NAME = some s') :
    0 ≤ fund_balance s ∧
    fund_balance s' = fund_balance s - min a (fund_balance s) ∧
    0 ≤ fund_balance s' ∧
    (∃ p, get_current_period s = some p ∧
      s'.txs = s.txs ++ [expense_tx s d a VIRTUAL_MEMBER_ID p.id] ∧
      (expense_tx s d a VIRTUAL_MEMBER_ID p.id).fund_delta = -(min a (fund_balance s)) ∧
      sumI ((expense_tx s d a VIRTUAL_MEMBER_ID p.id).member_deltas.map (fun dd => dd.2)) =
        -(a - min a (fund_balance s))) ∧
    (a ≤ fund_balance s → ∀ mid, member_balance_all s' mid = member_balance_all s mid) := by
  obtain ⟨ha, hact, p, payerId, hp, hm, hrec⟩ :=
    record_expense_inv s d a VIRTUAL_MEMBER_INTERNAL_NAME s' hs
  have hpayer : payerId = VIRTUAL_MEMBER_ID := by
    rw [findMemberId, if_pos rfl] at hm
    exact (Option.some.inj hm).symm
  subst hpayer
  have hF : 0 ≤ fund_balance s := reachable_fund_nonneg s hreach
  have hoff : expense_offset s a VIRTUAL_MEMBER_ID = min a (fund_balance s) := by
    simp [expense_offset]
  have htxs : s'.txs = s.txs ++ [expense_tx s d a VIRTUAL_MEMBER_ID p.id] := by
    rw [hrec]
  have hfund : fund_balance s' = fund_balance s - min a (fund_balance s) := by
    rw [fund_balance_append s s' _ htxs]
    have hfd : (expense_tx s d a VIRTUAL_MEMBER_ID p.id).fund_delta =
        -(expense_offset s a VIRTUAL_MEMBER_ID) := rfl
    simp only [List.map_cons, List.map_nil, sumI, hfd, hoff]
    ring
  have hsum2 := expense_tx_deltas_sum s d a VIRTUAL_MEMBER_ID p.id
  rw [if_pos rfl, hoff] at hsum2
  refine ⟨hF, hfund, by rw [hfund]; omega, ⟨p, hp, htxs, by rw [show (expense_tx s d a VIRTUAL_MEMBER_ID p.id).fund_delta = -(expense_offset s a VIRTUAL_MEMBER_ID) from rfl, hoff], by rw [hsum2]; ring⟩, ?_⟩
  intro hfa mid
  rw [member_balance_all_append s s' _ htxs]
  have hres : a - expense_offset s a VIRTUAL_MEMBER_ID = 0 := by
    rw [hoff]
    omega
  have hshare : (expense_split s a VIRTUAL_MEMBER_ID).1 = 0 := by
    simp only [expense_split, split_shares]
    rw [hres]
    simp
  have hrem : (expense_split s a VIRTUAL_MEMBER_ID).2 = 0 := by
    simp only [expense_split, split_shares] at hshare ⊢
    rw [hres] at hshare ⊢
    simp
  have hdz : deltaFor mid (expense_tx s d a VIRTUAL_MEMBER_ID p.id) = 0 := by
    rw [deltaFor]
    apply deltaSum_zero
    intro dd hdd
    simp only [expense_tx, if_pos rfl, hrem, ite_true, List.append_nil, List.nil_append] at hdd
    obtain ⟨m, hmm, rfl⟩ := List.mem_map.mp hdd
    simp [hshare]
  simp [sumI, hdz]

/-- C3 (counterexample): a shared 3000.00 expense with an empty fund is not
conserving — the system total (active-member balances plus fund) drops from
0 to -300000 minor units: expenses with the virtual fund member as payer
credit no one. -/
theorem shared_expense_destroys_money :
    total_money sAliceBob = 0 ∧
    record_expense sAliceBob (some "Rent") 300000 VIRTUAL_MEMBER_INTERNAL_NAME =
      some sharedRentState ∧
    total_money sharedRentState = -300000 ∧
    total_money sharedRentState ≠ total_money sAliceBob := by decide

/-- C3 (witness): the individual dinner expense of Alice conserves the
system total (0 before and after). -/
theorem expense_money_conservation_witness :
    total_money sAliceBob = 0 ∧ total_money dinnerState = total_money sAliceBob := by
  have h := expense_money_conservation sAliceBob (some "Dinner") 1000 "Alice" dinnerState
    (by decide) (by decide)
  exact ⟨by decide,
    h.1 ⟨1, "Alice", true, false⟩ (by decide) (by decide) (by decide) (by decide)⟩

/-- C4 (witness): with 30.00 in the fund, a shared 100.00 expense draws the
full 30.00 (offset = min), leaving the fund at exactly 0, never negative. -/
theorem shared_expense_fund_offset_witness :
    fund_balance fundSeededState = 3000 ∧
    fund_balance sharedAfterFund = 0 ∧
    0 ≤ fund_balance sharedAfterFund := by
  have h := shared_expense_fund_offset fundSeededState (some "Rent") 10000 sharedAfterFund
    (Reachable.deposit sAliceBob (some "pf") 3000 VIRTUAL_MEMBER_INTERNAL_NAME fundSeededState
      (Reachable.add sAlice "Bob" (Reachable.add initState "Alice" Reachable.init)) (by decide))
    (by decide)
  refine ⟨by decide, ?_, h.2.2.1⟩
  rw [h.2.1]
  decide



theorem getD_replicate_false (n i : Nat) :
    (List.replicate n false).getD i false = false := by
  induction n generalizing i with
  | zero => simp [List.replicate]
  | succ n ih =>
    cases i with
    | zero => simp [List.replicate_succ]
    | succ i => simp [List.replicate_succ, List.getD_cons_succ, ih]

theorem firstFalse_replicate_true_append (j : Nat) (l : List Bool) :
    firstFalse (List.replicate j true ++ l) = (firstFalse l).map (fun i => i + j) := by
  induction j with
  | zero =>
    simp only [List.replicate, List.nil_append]
    cases firstFalse l <;> simp
  | succ j ih =>
    rw [List.replicate_succ, List.cons_append]
    simp only [firstFalse, if_pos rfl, ih]
    cases firstFalse l <;> simp [Nat.add_assoc]

theorem firstFalse_replicate_true (n : Nat) :
    firstFalse (List.replicate n true) = none := by
  have h := firstFalse_replicate_true_append n []
  simpa [firstFalse] using h

theorem set_append_left_length {α : Type} (l r : List α) (x v : α) :
    (l ++ x :: r).set l.length v = l ++ v :: r := by
  induction l with
  | nil => rfl
  | cons a l ih => simp [List.set, ih]

theorem prefixFlags_zero (N : Nat) : prefixFlags N 0 = List.replicate N false := rfl

theorem prefixFlags_succ_cons (N j : Nat) :
    prefixFlags (N + 1) (j + 1) = true :: prefixFlags N j := by
  simp only [prefixFlags, List.replicate_succ, List.cons_append, Nat.succ_sub_succ]

theorem prefixFlags_length (N j : Nat) (h : j ≤ N) : (prefixFlags N j).length = N := by
  simp only [prefixFlags, List.length_append, List.length_replicate]
  omega

theorem assignRemainder_prefix_lt (N j : Nat) (h : j < N) :
    assignRemainder (prefixFlags N j) = (j, prefixFlags N (j + 1)) := by
  have hrep : List.replicate (N - j) false = false :: List.replicate (N - j - 1) false := by
    conv_lhs => rw [show N - j = (N - j - 1) + 1 from by omega]
    rw [List.replicate_succ]
  have hff : firstFalse (prefixFlags N j) = some j := by
    rw [prefixFlags, hrep, firstFalse_replicate_true_append]
    simp [firstFalse]
  rw [assignRemainder, hff]
  have hset : (prefixFlags N j).set j true = prefixFlags N (j + 1) := by
    rw [prefixFlags, hrep]
    have hs := set_append_left_length (List.replicate j true)
      (List.replicate (N - j - 1) false) false true
    rw [List.length_replicate] at hs
    rw [hs, prefixFlags]
    have h2 : N - (j + 1) = N - j - 1 := by omega
    rw [h2, List.replicate_succ', List.append_assoc, List.singleton_append]
  show (j, (prefixFlags N j).set j true) = (j, prefixFlags N (j + 1))
  rw [hset]

theorem assignRemainder_prefix_full (N : Nat) (h : 1 ≤ N) :
    assignRemainder (prefixFlags N N) = (0, prefixFlags N 1) := by
  have hpf : prefixFlags N N = List.replicate N true := by
    simp [prefixFlags]
  have hff : firstFalse (prefixFlags N N) = none := by
    rw [hpf]
    exact firstFalse_replicate_true N
  rw [assignRemainder, hff]
  have hset : ((prefixFlags N N).map (fun _ => false)).set 0 true = prefixFlags N 1 := by
    rw [hpf, List.map_replicate]
    obtain ⟨M, rfl⟩ : ∃ M, N = M + 1 := ⟨N - 1, by omega⟩
    rw [List.replicate_succ]
    have h1 : prefixFlags (M + 1) 1 = true :: prefixFlags M 0 := prefixFlags_succ_cons M 0
    rw [h1, prefixFlags_zero]
    rfl
  show (0, ((prefixFlags N N).map (fun _ => false)).set 0 true) = (0, prefixFlags N 1)
  rw [hset]

theorem mod_succ_lt (k N : Nat) (h1 : 1 ≤ k) (h2 : (k - 1) % N + 1 < N) :
    k % N = (k - 1) % N + 1 := by
  obtain ⟨m, rfl⟩ : ∃ m, k = m + 1 := ⟨k - 1, by omega⟩
  simp only [Nat.add_sub_cancel] at h2 ⊢
  rw [Nat.add_mod, Nat.mod_eq_of_lt (show 1 < N by omega)]
  exact Nat.mod_eq_of_lt (by omega)

theorem mod_succ_full (k N : Nat) (h1 : 1 ≤ k) (hN : 1 ≤ N) (h2 : (k - 1) % N = N - 1) :
    k % N = 0 := by
  obtain ⟨m, rfl⟩ : ∃ m, k = m + 1 := ⟨k - 1, by omega⟩
  simp only [Nat.add_sub_cancel] at h2
  rcases Nat.lt_or_ge 1 N with hN2 | hN1
  · rw [Nat.add_mod, h2, Nat.mod_eq_of_lt hN2]
    have h3 : N - 1 + 1 = N := by omega
    rw [h3, Nat.mod_self]
  · have : N = 1 := by omega
    rw [this, Nat.mod_one]

theorem jval_le (N k : Nat) (hN : 1 ≤ N) : jval N k ≤ N := by
  rw [jval]
  split
  · omega
  · have := Nat.mod_lt (k - 1) (show N > 0 by omega)
    omega

theorem mod_eq_jval (N k : Nat) (hN : 1 ≤ N) (hk : 1 ≤ k) :
    (k - 1) % N = if jval N (k - 1) = N then 0 else jval N (k - 1) := by
  by_cases hk1 : k = 1
  · subst hk1
    rw [show (1 : Nat) - 1 = 0 from rfl, jval, if_pos rfl, if_neg (by omega)]
    exact Nat.zero_mod N
  · have hk2 : 2 ≤ k := by omega
    rw [jval, if_neg (by omega : ¬ k - 1 = 0)]
    by_cases hful : (k - 1 - 1) % N + 1 = N
    · rw [if_pos hful]
      exact mod_succ_full (k - 1) N (by omega) hN (by omega)
    · rw [if_neg hful]
      have hlt : (k - 1 - 1) % N + 1 < N := by
        have := Nat.mod_lt (k - 1 - 1) (show N > 0 by omega)
        omega
      exact mod_succ_lt (k - 1) N (by omega) hlt

theorem flagsAfter_succ (N k : Nat) :
    flagsAfter N (k + 1) = (assignRemainder (flagsAfter N k)).2 :=
  Function.iterate_succ_apply' _ _ _

theorem flagsAfter_eq_prefixFlags (N k : Nat) (hN : 1 ≤ N) :
    flagsAfter N k = prefixFlags N (jval N k) := by
  induction k with
  | zero => rfl
  | succ k ih =>
    rw [flagsAfter_succ, ih]
    have hmod := mod_eq_jval N (k + 1) hN (by omega)
    simp only [Nat.add_sub_cancel] at hmod
    have hjk1 : jval N (k + 1) = k % N + 1 := by
      rw [jval, if_neg (by omega)]
      simp only [Nat.add_sub_cancel]
    by_cases hj : jval N k < N
    · rw [assignRemainder_prefix_lt N (jval N k) hj]
      rw [if_neg (by omega)] at hmod
      rw [hjk1, hmod]
    · have hje : jval N k = N := by have := jval_le N k hN; omega
      rw [hje, assignRemainder_prefix_full N hN]
      rw [if_pos hje] at hmod
      rw [hjk1, hmod]

theorem getD_prefixFlags (N j i : Nat) (hij : i < N) (hj : j ≤ N) :
    (prefixFlags N j).getD i false = decide (i < j) := by
  induction N generalizing j i with
  | zero => omega
  | succ N ih =>
    cases j with
    | zero =>
      rw [prefixFlags_zero, getD_replicate_false]
      simp
    | succ j =>
      rw [prefixFlags_succ_cons]
      cases i with
      | zero => simp
      | succ i =>
        rw [List.getD_cons_succ, ih j i (by omega) (by omega)]
        simp only [decide_eq_decide]
        omega

theorem allTrue_prefixFlags (N j : Nat) (hj : j ≤ N) :
    allTrue (prefixFlags N j) = decide (N ≤ j) := by
  induction N generalizing j with
  | zero =>
    have : j = 0 := by omega
    subst this
    rfl
  | succ N ih =>
    cases j with
    | zero =>
      rw [prefixFlags_zero, List.replicate_succ]
      simp [allTrue]
    | succ j =>
      rw [prefixFlags_succ_cons]
      simp only [allTrue, List.all_cons, Bool.true_and] at ih ⊢
      rw [ih j (by omega)]
      simp only [decide_eq_decide]
      omega





theorem assignRemainder_length (fl : List Bool) :
    (assignRemainder fl).2.length = fl.length := by
  rw [assignRemainder]
  cases firstFalse fl <;> simp

theorem write_flags_filter_flags (ms : List Member) (fl : List Bool)
    (h : fl.length = (ms.filter (fun m => m.is_active)).length) :
    ((write_flags ms fl).filter (fun m => m.is_active)).map
      (fun m => m.paid_remainder_in_cycle) = fl := by
  induction ms generalizing fl with
  | nil =>
    simp only [List.filter_nil, List.length_nil] at h
    rw [write_flags]
    simpa using List.length_eq_zero.mp h
  | cons m ms ih =>
    simp only [write_flags]
    by_cases hact : m.is_active
    · rw [if_pos hact]
      simp only [List.filter_cons, hact, ite_true, List.length_cons] at h
      cases fl with
      | nil => simp at h
      | cons f fs =>
        have hact' : ({ m with paid_remainder_in_cycle := f } : Member).is_active = true := hact
        simp only [List.filter_cons, hact', hact, ite_true, List.map_cons]
        rw [ih fs (by simpa using h)]
    · rw [if_neg hact]
      simp only [List.filter_cons, hact, ite_false] at h ⊢
      simp only [Bool.false_eq_true, if_false] at h ⊢
      exact ih fl h

theorem record_expense_advances_rotation (s : DB) (d : Option String) (a : Int)
    (pn : String) (s' : DB)
    (hs : record_expense s d a pn = some s')
    (hrem : ∀ payerId, findMemberId s pn = some payerId →
      (expense_split s a payerId).2 ≠ 0) :
    (get_active_members s').map (fun m => m.paid_remainder_in_cycle) =
      (assignRemainder ((get_active_members s).map
        (fun m => m.paid_remainder_in_cycle))).2 := by
  obtain ⟨ha, hact, p, payerId, hp, hm, hrec⟩ := record_expense_inv s d a pn s' hs
  have hr := hrem payerId hm
  rw [hrec]
  simp only [get_active_members]
  rw [if_neg hr]
  apply write_flags_filter_flags
  rw [expense_rotation, assignRemainder_length]
  simp [get_active_members]

/-- C2: iterating the remainder rotation (`assignRemainder`, the exact
operation `record_expense` advances through `expense_rotation` whenever an
expense leaves a nonzero remainder) over `N` active members in ascending-id
order, starting from all-false flags: the `k`-th remainder (1-based) goes to
the member at index `(k-1) mod N` regardless of who paid; the chosen flag is
set; on non-reset steps no other flag changes; and the flags are reset
exactly when all `N` have been true — that is, on step `k` with `k >= 2` and
`(k-1) mod N = 0`.  The last conjunct ties the subsystem to the recorder:
whenever `record_expense` hits a nonzero remainder, the stored
active-member flags advance by exactly this `assignRemainder` step,
whoever paid. -/
theorem remainder_round_robin (N k : Nat) (hN : 1 ≤ N) (hk : 1 ≤ k) :
    choiceAt N k = (k - 1) % N ∧
    (flagsAfter N k).getD ((k - 1) % N) false = true ∧
    (allTrue (flagsAfter N (k - 1)) = false →
      ∀ i, i ≠ (k - 1) % N →
        (flagsAfter N k).getD i false = (flagsAfter N (k - 1)).getD i false) ∧
    (allTrue (flagsAfter N (k - 1)) = true ↔ 2 ≤ k ∧ (k - 1) % N = 0) ∧
    (∀ s d a pn s', record_expense s d a pn = some s' →
      (∀ payerId, findMemberId s pn = some payerId →
        (expense_split s a payerId).2 ≠ 0) →
      (get_active_members s').map (fun m => m.paid_remainder_in_cycle) =
        (assignRemainder ((get_active_members s).map
          (fun m => m.paid_remainder_in_cycle))).2) := by
  have hmod := mod_eq_jval N k hN hk
  have hjk : jval N k = (k - 1) % N + 1 := by rw [jval, if_neg (by omega)]
  have hjle := jval_le N (k - 1) hN
  have hjkle := jval_le N k hN
  have hmlt : (k - 1) % N < N := Nat.mod_lt _ (by omega)
  have hall : allTrue (flagsAfter N (k - 1)) = decide (N ≤ jval N (k - 1)) := by
    rw [flagsAfter_eq_prefixFlags N (k - 1) hN, allTrue_prefixFlags N _ hjle]
  have hchoice : choiceAt N k = (k - 1) % N := by
    rw [choiceAt, flagsAfter_eq_prefixFlags N (k - 1) hN]
    by_cases hj : jval N (k - 1) < N
    · rw [assignRemainder_prefix_lt N _ hj]
      rw [if_neg (by omega)] at hmod
      omega
    · have hje : jval N (k - 1) = N := by omega
      rw [hje, assignRemainder_prefix_full N hN]
      rw [if_pos hje] at hmod
      omega
  refine ⟨hchoice, ?_, ?_, ?_,
    fun s d a pn s' hs hr => record_expense_advances_rotation s d a pn s' hs hr⟩
  · rw [flagsAfter_eq_prefixFlags N k hN, getD_prefixFlags N _ _ hmlt hjkle, hjk]
    simp
  · intro hfalse i hne
    have hjlt : jval N (k - 1) < N := by
      rw [hall] at hfalse
      simp only [decide_eq_false_iff_not] at hfalse
      omega
    rw [if_neg (by omega)] at hmod
    by_cases hiN : i < N
    · rw [flagsAfter_eq_prefixFlags N k hN, flagsAfter_eq_prefixFlags N (k - 1) hN,
        getD_prefixFlags N _ i hiN hjkle, getD_prefixFlags N _ i hiN hjle]
      simp only [decide_eq_decide]
      omega
    · rw [flagsAfter_eq_prefixFlags N k hN, flagsAfter_eq_prefixFlags N (k - 1) hN,
        List.getD_eq_default _ _ (by rw [prefixFlags_length N _ hjkle]; omega),
        List.getD_eq_default _ _ (by rw [prefixFlags_length N _ hjle]; omega)]
  · rw [hall]
    simp only [decide_eq_true_eq]
    constructor
    · intro hge
      have hje : jval N (k - 1) = N := by omega
      have hk2 : 2 ≤ k := by
        by_contra hc
        have : k = 1 := by omega
        subst this
        rw [show (1 : Nat) - 1 = 0 from rfl, jval, if_pos rfl] at hje
        omega
      rw [if_pos hje] at hmod
      exact ⟨hk2, hmod⟩
    · intro ⟨hk2, hz⟩
      by_cases hje : jval N (k - 1) = N
      · omega
      · rw [if_neg hje] at hmod
        rw [jval, if_neg (by omega : ¬ k - 1 = 0)] at hmod hje ⊢
        omega

/-- C2 (witness): with 3 members, the 4th remainder returns to member 0
after a reset (all three flags were true after step 3). -/
theorem remainder_round_robin_witness :
    choiceAt 3 4 = 0 ∧ choiceAt 3 4 = (4 - 1) % 3 ∧
    allTrue (flagsAfter 3 3) = true ∧
    (flagsAfter 3 4).getD 0 false = true := by
  have h := remainder_round_robin 3 4 (by decide) (by decide)
  refine ⟨h.1.trans (by decide), h.1, h.2.2.2.1.mpr (by decide), ?_⟩
  have h2 := h.2.1
  rw [show (4 - 1) % 3 = 0 from by decide] at h2
  exact h2



/-- C8 (amended): the expense split computes `share = amount // activeCount`
(floor division) and `remainder = amount - share * activeCount`; the
remainder equals `amount mod activeCount` and lies in
`[0, activeCount - 1]` — it is NOT always 0 or 1. -/
theorem split_shares_spec (amount : Int) (N : Nat) (hN : 0 < N) :
    (split_shares amount N).1 = amount / (N : Int) ∧
    (split_shares amount N).2 = amount - (amount / (N : Int)) * N ∧
    (split_shares amount N).2 = amount % (N : Int) ∧
    0 ≤ (split_shares amount N).2 ∧ (split_shares amount N).2 < N ∧
    (split_shares amount N).1 * N + (split_shares amount N).2 = amount := by
  have hN0 : (N : Int) ≠ 0 := by exact_mod_cast Nat.pos_iff_ne_zero.mp hN
  have hNpos : (0 : Int) < N := by exact_mod_cast hN
  have hmod : (split_shares amount N).2 = amount % (N : Int) := by
    simp only [split_shares]
    rw [Int.emod_def]
    ring
  refine ⟨rfl, rfl, hmod, ?_, ?_, ?_⟩
  · rw [hmod]; exact Int.emod_nonneg amount hN0
  · rw [hmod]; exact Int.emod_lt_of_pos amount hNpos
  · simp only [split_shares]; ring

/-- C8 (counterexample): a 5.00 expense among 3 members leaves a remainder
of 2 minor units (500 = 166 * 3 + 2), and `record_expense` charges those 2
units to the round-robin member in one piece — refuting "the remainder is
always 0 or exactly 1 minor unit". -/
theorem split_remainder_not_at_most_one :
    (split_shares 500 3).2 = 2 ∧
    ¬ ((split_shares 500 3).2 = 0 ∨ (split_shares 500 3).2 = 1) ∧
    record_expense sABC (some "Odd") 500 "Alice" = some oddSplitState ∧
    oddSplitState.txs.map (fun t => t.member_deltas) =
      [[(1, 500), (1, -166), (2, -166), (3, -166), (1, -2)]] := by decide

/-- C8 (witness): 10.00 among 3 members: remainder 1 = 1000 mod 3, within
`[0, 2]`. -/
theorem split_shares_spec_witness :
    (split_shares 1000 3).2 = 1000 % 3 ∧
    0 ≤ (split_shares 1000 3).2 ∧ (split_shares 1000 3).2 < 3 := by
  have h := split_shares_spec 1000 3 (by decide)
  exact ⟨h.2.2.1, h.2.2.2.1, h.2.2.2.2.1⟩

theorem maxBatchId_ge (ledger : List TransactionLog) (l : TransactionLog) (h : l ∈ ledger) :
    ∃ m, maxBatchId ledger = some m ∧ l.transaction_batch_id ≤ m := by
  induction ledger with
  | nil => simp at h
  | cons x xs ih =>
    simp only [maxBatchId]
    rcases List.mem_cons.mp h with rfl | h'
    · cases hm : maxBatchId xs with
      | none => exact ⟨_, rfl, le_refl _⟩
      | some m => exact ⟨_, rfl, le_max_left _ _⟩
    · obtain ⟨m, hm, hle⟩ := ih h'
      rw [hm]
      exact ⟨_, rfl, le_trans hle (le_max_right _ _)⟩

/-- C9: `record_batch` stamps every log of a (non-empty) list with the same
fresh batch id — one plus the maximum existing id, or 1 on an empty ledger —
which is strictly greater than every pre-existing batch id, and
`get_logs_by_batch_id` on that id returns exactly the stamped logs of the
call. -/
theorem record_batch_spec (ledger logs : List TransactionLog) (_hne : logs ≠ []) :
    (record_batch ledger logs).2 = (maxBatchId ledger).getD 0 + 1 ∧
    (ledger = [] → (record_batch ledger logs).2 = 1) ∧
    (∀ l ∈ ledger, l.transaction_batch_id < (record_batch ledger logs).2) ∧
    (record_batch ledger logs).1 = ledger ++
      logs.map (fun l => { l with transaction_batch_id := (record_batch ledger logs).2 }) ∧
    (∀ l ∈ logs.map (fun l => { l with transaction_batch_id := (record_batch ledger logs).2 }),
      l.transaction_batch_id = (record_batch ledger logs).2) ∧
    get_logs_by_batch_id (record_batch ledger logs).1 (record_batch ledger logs).2 =
      logs.map (fun l => { l with transaction_batch_id := (record_batch ledger logs).2 }) := by
  have hlt : ∀ l ∈ ledger, l.transaction_batch_id < (record_batch ledger logs).2 := by
    intro l hl
    obtain ⟨m, hm, hle⟩ := maxBatchId_ge ledger l hl
    show l.transaction_batch_id < get_next_batch_id ledger
    rw [get_next_batch_id, hm]
    simp only [Option.getD_some]
    omega
  refine ⟨rfl, ?_, hlt, rfl, ?_, ?_⟩
  · intro h
    subst h
    rfl
  · intro l hl
    obtain ⟨l₀, hl₀, rfl⟩ := List.mem_map.mp hl
    rfl
  · show (ledger ++ logs.map _).filter _ = _
    rw [List.filter_append]
    have h1 : ledger.filter
        (fun l => l.transaction_batch_id = (record_batch ledger logs).2) = [] := by
      rw [List.filter_eq_nil_iff]
      intro l hl
      have := hlt l hl
      simp only [decide_eq_true_eq]
      omega
    have h2 : (logs.map (fun l =>
        { l with transaction_batch_id := (record_batch ledger logs).2 })).filter
        (fun l => l.transaction_batch_id = (record_batch ledger logs).2) =
        logs.map (fun l => { l with transaction_batch_id := (record_batch ledger logs).2 }) := by
      rw [List.filter_eq_self]
      intro l hl
      obtain ⟨l₀, hl₀, rfl⟩ := List.mem_map.mp hl
      simp
    rw [h1,
      show get_next_batch_id ledger = (record_batch ledger logs).2 from rfl,
      h2, List.nil_append]

/-- C9 (witness): a ledger with max batch id 1 assigns batch id 2 to both
new logs, and querying batch 2 returns exactly them. -/
theorem record_batch_spec_witness :
    (record_batch [sampleLog 1] [sampleLog 0, sampleLog 7]).2 = 2 ∧
    get_logs_by_batch_id (record_batch [sampleLog 1] [sampleLog 0, sampleLog 7]).1 2 =
      [sampleLog 2, sampleLog 2] := by
  have h := record_batch_spec [sampleLog 1] [sampleLog 0, sampleLog 7] (by decide)
  constructor
  · rw [h.1]; decide
  · have h6 := h.2.2.2.2.2
    rw [show (record_batch [sampleLog 1] [sampleLog 0, sampleLog 7]).2 = 2 from by decide] at h6
    rw [h6]
    decide



theorem foldl_update_frame (data : List (String × PyVal)) (entity : Obj)
    (excluded : List String) (k : String)
    (hk : k ∈ excluded ∨ (∀ v, (k, v) ∉ data)) :
    (data.foldl (fun e kv =>
      if kv.1 ∈ excluded then e
      else if hasattr e kv.1 then setattr e kv.1 kv.2 else e) entity) k = entity k := by
  induction data generalizing entity with
  | nil => rfl
  | cons kv data ih =>
    simp only [List.foldl_cons]
    have hk' : k ∈ excluded ∨ (∀ v, (k, v) ∉ data) := by
      rcases hk with hk | hk
      · exact Or.inl hk
      · exact Or.inr (fun v hv => hk v (by simp [hv]))
    rw [ih _ hk']
    split
    · rfl
    · rename_i hex
      split
      · rw [setattr]
        rw [if_neg]
        intro hc
        rcases hk with hk | hk
        · rw [hc] at hk
          exact hex hk
        · exact hk kv.2 (by rw [hc]; simp)
      · rfl

theorem foldl_update_nonattr (data : List (String × PyVal)) (entity : Obj)
    (excluded : List String) (k : String) (hk : entity k = none) :
    (data.foldl (fun e kv =>
      if kv.1 ∈ excluded then e
      else if hasattr e kv.1 then setattr e kv.1 kv.2 else e) entity) k = none := by
  induction data generalizing entity with
  | nil => exact hk
  | cons kv data ih =>
    simp only [List.foldl_cons]
    apply ih
    split
    · exact hk
    · split
      · rename_i hha
        rw [setattr, if_neg]
        · exact hk
        · intro hc
          rw [hasattr, ← hc, hk] at hha
          simp at hha
      · exact hk

/-- C10: `UserRepository.update` changes only attributes that are keys of
the update dictionary, exist on the entity, and are outside the blocklist
`{id, password_hash, created_at, created_by}`; in particular `id` and
`password_hash` are unchanged even when supplied, and unknown keys are
silently ignored (an absent attribute stays absent). -/
theorem user_update_frame (users : List (Nat × Obj)) (uid : Nat)
    (data : List (String × PyVal)) (u₀ : Obj)
    (h : user_get_by_id users uid = some u₀) :
    ∃ u', user_update users uid data = some u' ∧
      (∀ k, (k ∈ USER_UPDATE_SENSITIVE ∨ (∀ v, (k, v) ∉ data)) → u' k = u₀ k) ∧
      (∀ k, u₀ k = none → u' k = none) ∧
      u' "id" = u₀ "id" ∧ u' "password_hash" = u₀ "password_hash" := by
  have hframe : ∀ k, (k ∈ USER_UPDATE_SENSITIVE ∨ (∀ v, (k, v) ∉ data)) →
      apply_dict_updates u₀ data (some USER_UPDATE_SENSITIVE) k = u₀ k := by
    intro k hk
    exact foldl_update_frame data u₀ USER_UPDATE_SENSITIVE k hk
  refine ⟨apply_dict_updates u₀ data (some USER_UPDATE_SENSITIVE), ?_, hframe, ?_, ?_, ?_⟩
  · rw [user_update, h]
  · intro k hk
    exact foldl_update_nonattr data u₀ USER_UPDATE_SENSITIVE k hk
  · exact hframe "id" (Or.inl (by simp [USER_UPDATE_SENSITIVE]))
  · exact hframe "password_hash" (Or.inl (by simp [USER_UPDATE_SENSITIVE]))

/-- C10 (witness): updating a concrete user with a dictionary supplying
`id`, `password_hash`, a legitimate `username` change and an unknown key
leaves `id` and `password_hash` at their original values. -/
theorem user_update_frame_witness :
    ∃ u', user_update [(7, sampleUser)] 7
        [("id", PyVal.int 9), ("password_hash", PyVal.str "x"),
         ("username", PyVal.str "neo"), ("nope", PyVal.int 1)] = some u' ∧
      u' "id" = some (PyVal.int 7) ∧ u' "password_hash" = some (PyVal.str "h") := by
  obtain ⟨u', hu, hframe, hnon, hid, hph⟩ := user_update_frame [(7, sampleUser)] 7
    [("id", PyVal.int 9), ("password_hash", PyVal.str "x"),
     ("username", PyVal.str "neo"), ("nope", PyVal.int 1)] sampleUser rfl
  refine ⟨u', hu, ?_, ?_⟩
  · rw [hid]; rfl
  · rw [hph]; rfl

end Divvy
